import Mathlib

set_option maxHeartbeats 1000000

/-
Verification of the hand-written JSON parser in src/lib.rs.

Embedding conventions:
- The Rust scanner state is the immutable character buffer `s : List Char`
  together with the integer cursor `c : Nat`; `self.chars.get(self.cursor)`
  becomes the safe lookup notation on lists at index c, and `self.cursor += 1`
  becomes `c + 1`.  Operations that mutate the cursor return a pair
  (result, new cursor).
- Rust `Result<T, JsonParserError>` becomes `Except JErr T`.
- Rust `String` buffers become `List Char`.
- `char::is_whitespace`, `char::is_numeric` and `char::is_alphabetic` are
  modelled by Lean's `Char.isWhitespace`, `Char.isDigit` and `Char.isAlpha`.
  The Rust classifiers extend to non-ASCII Unicode characters; the two
  families agree on the ASCII characters all claims are about.
- `text.parse::<f64>()` is modelled exactly, over the rationals, by
  `parseNumText`: the grammar here (digit runs with at most one internal
  dot) denotes values whose decimal meaning is captured by the model; the
  numeric literals appearing in the claims (1, 2, 2.5, 100) are exactly
  representable as f64, so equalities coincide with the Rust behaviour.
- `HashMap<String, JsonValue>` with its `insert` (last write wins) is
  modelled by an association list with the overwrite-in-place `insertKV`;
  the claims compare objects by their key/value contents.
- The three mutually recursive readers (`parse_next`, `parse_array`,
  `parse_object`) and the two reader loops are given a fuel parameter to
  express the recursion; `none` marks fuel exhaustion and never occurs at
  the fuel budget used by `parse` in the theorems below (every theorem
  about a run produces or assumes a `some` result).
- The simple self-contained while loops (`chop`, the string/number/word
  accumulation loops) recurse on `s.length - c`; where the Rust loop guard
  `self.cursor < self.chars.len()` makes an inner `read`/`consume`
  infallible, the embedding reads the character directly under the guard.
-/

namespace SJP

/-- The error enum `JsonParserError` from src/lib.rs. -/
inductive JErr : Type where
  | NoEnd
  | InvalidChar (expected got : Char)
  | InvalidNumber (text : List Char)
  | Eof
  | Unknown
  deriving DecidableEq

/-- The value tree `JsonValue` from src/lib.rs. -/
inductive JsonValue : Type where
  | null
  | bool (b : Bool)
  | number (q : Rat)
  | str (text : List Char)
  | arr (items : List JsonValue)
  | obj (entries : List (List Char × JsonValue))

/-- `HashMap::insert`: overwrite the value of an existing key in place,
otherwise append the new binding. -/
def insertKV (m : List (List Char × JsonValue)) (k : List Char) (v : JsonValue) :
    List (List Char × JsonValue) :=
  match m with
  | [] => [(k, v)]
  | (k', v') :: rest => if k' = k then (k, v) :: rest else (k', v') :: insertKV rest k v

/-- `JsonParser::chop`: advance the cursor past whitespace. -/
def chop (s : List Char) (c : Nat) : Nat :=
  match h : s[c]? with
  | some ch => if ch.isWhitespace then chop s (c + 1) else c
  | none => c
termination_by s.length - c
decreasing_by
  have hc : c < s.length := by
    by_contra hc
    rw [List.getElem?_eq_none (by omega)] at h
    cases h
  omega

/-- `JsonParser::read`: the character at the cursor, or `Eof`. -/
def read (s : List Char) (c : Nat) : Except JErr Char :=
  match s[c]? with
  | some ch => .ok ch
  | none => .error .Eof

/-- `JsonParser::consume`: `read`, then advance. -/
def consume (s : List Char) (c : Nat) : Except JErr Char × Nat :=
  match read s c with
  | .ok ch => (.ok ch, c + 1)
  | .error e => (.error e, c)

/-- `JsonParser::consume_check`: consume one character and require it to be
`expected`. -/
def consumeCheck (s : List Char) (c : Nat) (expected : Char) : Except JErr Unit × Nat :=
  match consume s c with
  | (.ok got, c') =>
      if got ≠ expected then (.error (.InvalidChar expected got), c')
      else (.ok (), c')
  | (.error e, c') => (.error e, c')

/-- The accumulation loop of `JsonParser::parse_string`: consume characters
until a closing quote (not appended) or end of input (`NoEnd`). -/
def stringLoop (s : List Char) (c : Nat) (text : List Char) : Except JErr (List Char) × Nat :=
  if h : c < s.length then
    if s[c] = '"' then (.ok text, c + 1)
    else stringLoop s (c + 1) (text ++ [s[c]])
  else (.error .NoEnd, c)
termination_by s.length - c

/-- `JsonParser::parse_string`. -/
def parseString (s : List Char) (c : Nat) : Except JErr (List Char) × Nat :=
  match consumeCheck s c '"' with
  | (.ok _, c') => stringLoop s c' []
  | (.error e, c') => (.error e, c')

/-- The number accumulation loop inside `JsonParser::parse_next`: digits and
at most one dot; a second dot is pushed and reported as `InvalidNumber`
without advancing the cursor. -/
def numLoop (s : List Char) (c : Nat) (foundPoint : Bool) (text : List Char) :
    Except JErr (List Char) × Nat :=
  if h : c < s.length then
    if s[c] = '.' then
      if foundPoint then (.error (.InvalidNumber (text ++ ['.'])), c)
      else numLoop s (c + 1) true (text ++ ['.'])
    else if s[c].isDigit then numLoop s (c + 1) foundPoint (text ++ [s[c]])
    else (.ok text, c)
  else (.ok text, c)
termination_by s.length - c

/-- Numeric value of a digit string. -/
def digitsVal (ds : List Char) : Nat :=
  ds.foldl (fun a ch => a * 10 + (ch.toNat - 48)) 0

/-- Split a buffer at its first dot. -/
def splitAtDot : List Char → List Char × Option (List Char)
  | [] => ([], none)
  | ch :: rest =>
      if ch = '.' then ([], some rest)
      else
        let p := splitAtDot rest
        (ch :: p.1, p.2)

/-- The rational denoted by an integer digit part and an optional fractional
digit part. -/
def numValue (ip : List Char) (fr : Option (List Char)) : Rat :=
  match fr with
  | none => (digitsVal ip : Rat)
  | some f => (digitsVal ip : Rat) + (digitsVal f : Rat) / (10 : Rat) ^ f.length

/-- Model of `text.parse::<f64>()` on the buffers the number loop can
produce (digit runs with at most one dot): accepts a non-empty buffer of
digits with at most one internal dot (a buffer that is just a dot, or that
contains any non-digit besides the single dot, fails), returning its exact
decimal value as a rational. -/
def parseNumText (t : List Char) : Option Rat :=
  let p := splitAtDot t
  match p.2 with
  | none => if t ≠ [] ∧ p.1.all Char.isDigit then some (numValue p.1 none) else none
  | some f =>
      if (p.1 ≠ [] ∨ f ≠ []) ∧ p.1.all Char.isDigit ∧ f.all Char.isDigit then
        some (numValue p.1 (some f))
      else none

/-- The numeric branch of `JsonParser::parse_next`: run the number loop,
then parse the accumulated buffer. -/
def numberRead (s : List Char) (c : Nat) : Except JErr JsonValue × Nat :=
  match numLoop s c false [] with
  | (.ok text, c') =>
      match parseNumText text with
      | some q => (.ok (.number q), c')
      | none => (.error (.InvalidNumber text), c')
  | (.error e, c') => (.error e, c')

/-- The bare-word accumulation loop inside `JsonParser::parse_next`:
consecutive alphabetic characters. -/
def wordLoop (s : List Char) (c : Nat) (text : List Char) : List Char × Nat :=
  if h : c < s.length then
    if s[c].isAlpha then wordLoop s (c + 1) (text ++ [s[c]])
    else (text, c)
  else (text, c)
termination_by s.length - c

/-- The bare-word branch of `JsonParser::parse_next`: map exactly
`null`, `true`, `false`; anything else is `Unknown`. -/
def wordRead (s : List Char) (c : Nat) : Except JErr JsonValue × Nat :=
  match wordLoop s c [] with
  | (text, c') =>
      if text = ['n', 'u', 'l', 'l'] then (.ok .null, c')
      else if text = ['t', 'r', 'u', 'e'] then (.ok (.bool true), c')
      else if text = ['f', 'a', 'l', 's', 'e'] then (.ok (.bool false), c')
      else (.error .Unknown, c')

mutual

/-- `JsonParser::parse_next`: skip whitespace, peek, dispatch. -/
def parseNext : Nat → List Char → Nat → Option (Except JErr JsonValue × Nat)
  | 0, _, _ => none
  | fuel + 1, s, c =>
    let c1 := chop s c
    match read s c1 with
    | .error e => some (.error e, c1)
    | .ok ch =>
      if ch = '\x7b' then parseObject fuel s c1
      else if ch = '"' then
        some (match parseString s c1 with
          | (.ok text, c') => (.ok (.str text), c')
          | (.error e, c') => (.error e, c'))
      else if ch = '[' then parseArray fuel s c1
      else if ch.isDigit then some (numberRead s c1)
      else if ch.isAlpha then some (wordRead s c1)
      else some (.error .Unknown, c1)

/-- `JsonParser::parse_array`: consume the bracket, skip whitespace, run
the element loop. -/
def parseArray : Nat → List Char → Nat → Option (Except JErr JsonValue × Nat)
  | 0, _, _ => none
  | fuel + 1, s, c =>
    match consumeCheck s c '[' with
    | (.error e, c') => some (.error e, c')
    | (.ok _, c') => arrLoop fuel s (chop s c') false []

/-- The element loop of `JsonParser::parse_array`, with the post-loop
`if end { chop; Ok } else { NoEnd }` inlined at every exit point. -/
def arrLoop : Nat → List Char → Nat → Bool → List JsonValue →
    Option (Except JErr JsonValue × Nat)
  | 0, _, _, _, _ => none
  | fuel + 1, s, c, expectNext, result =>
    if c < s.length then
      match read s c with
      | .error e => some (.error e, c)
      | .ok ch =>
        if ch = ']' then
          if expectNext then some (.error .Unknown, c)
          else some (.ok (.arr result), chop s (c + 1))
        else
          match parseNext fuel s c with
          | none => none
          | some (.error e, c1) => some (.error e, c1)
          | some (.ok v, c1) =>
            match consume s (chop s c1) with
            | (.error e, c3) => some (.error e, c3)
            | (.ok next, c3) =>
              if next = ',' then arrLoop fuel s (chop s c3) true (result ++ [v])
              else if next = ']' then some (.ok (.arr (result ++ [v])), chop s c3)
              else some (.error .NoEnd, c3)
    else some (.error .NoEnd, c)

/-- `JsonParser::parse_object`: consume the brace, skip whitespace, run
the member loop. -/
def parseObject : Nat → List Char → Nat → Option (Except JErr JsonValue × Nat)
  | 0, _, _ => none
  | fuel + 1, s, c =>
    match consumeCheck s c '\x7b' with
    | (.error e, c') => some (.error e, c')
    | (.ok _, c') => objLoop fuel s (chop s c') false []

/-- The member loop of `JsonParser::parse_object`, with the post-loop
`if end { Ok } else { NoEnd }` inlined at every exit point (note: unlike
the array loop, no trailing whitespace skip on success). -/
def objLoop : Nat → List Char → Nat → Bool → List (List Char × JsonValue) →
    Option (Except JErr JsonValue × Nat)
  | 0, _, _, _, _ => none
  | fuel + 1, s, c, expectNext, result =>
    if c < s.length then
      match read s c with
      | .error e => some (.error e, c)
      | .ok ch =>
        if ch = '\x7d' then
          if expectNext then some (.error .Unknown, c)
          else some (.ok (.obj result), c + 1)
        else
          match parseString s c with
          | (.error e, c1) => some (.error e, c1)
          | (.ok key, c1) =>
            match consumeCheck s (chop s c1) ':' with
            | (.error e, c2) => some (.error e, c2)
            | (.ok _, c2) =>
              match parseNext fuel s (chop s c2) with
              | none => none
              | some (.error e, c3) => some (.error e, c3)
              | some (.ok v, c3) =>
                match consume s (chop s c3) with
                | (.error e, c5) => some (.error e, c5)
                | (.ok next, c5) =>
                  if next = ',' then objLoop fuel s (chop s c5) true (insertKV result key v)
                  else if next = '\x7d' then
                    some (.ok (.obj (insertKV result key v)), c5)
                  else some (.error .NoEnd, c5)
    else some (.error .NoEnd, c)

end

/-- Fuel budget used by `parse`; sufficient for every run the theorems
below consider (each unit of nesting consumes at most three fuel and at
least one character). -/
def parseFuel (s : List Char) : Nat := 3 * s.length + 3

/-- `JsonParser::parse` including the final cursor: skip leading
whitespace, then require a root object. -/
def parseFull (s : List Char) : Option (Except JErr JsonValue × Nat) :=
  parseObject (parseFuel s) s (chop s 0)

/-- `JsonParser::parse`: the result of parsing the full input. -/
def parse (s : List Char) : Option (Except JErr JsonValue) :=
  (parseFull s).map (fun r => r.1)

/-! Basic stepping lemmas, phrased through `List.drop`: the hypothesis
`s.drop c = ...` describes the text the scanner still has to consume. -/

theorem drop_head (s : List Char) (c : Nat) (ch : Char) (tl : List Char)
    (h : s.drop c = ch :: tl) : s[c]? = some ch := by
  rw [← List.head?_drop, h]; rfl

theorem drop_lt (s : List Char) (c : Nat) (ch : Char) (tl : List Char)
    (h : s.drop c = ch :: tl) : c < s.length := by
  by_contra hc
  rw [List.drop_eq_nil_iff.mpr (by omega)] at h
  cases h

theorem drop_get (s : List Char) (c : Nat) (ch : Char) (tl : List Char)
    (h : s.drop c = ch :: tl) (hlt : c < s.length) : s[c] = ch := by
  have h1 := drop_head s c ch tl h
  rw [List.getElem?_eq_getElem hlt] at h1
  exact Option.some.inj h1

theorem drop_tail (s : List Char) (c : Nat) (ch : Char) (tl : List Char)
    (h : s.drop c = ch :: tl) : s.drop (c + 1) = tl := by
  rw [← List.tail_drop, h]
  rfl

theorem drop_append (s : List Char) (c : Nat) (X Y : List Char)
    (h : s.drop c = X ++ Y) : s.drop (c + X.length) = Y := by
  induction X generalizing c with
  | nil => simpa using h
  | cons x xs ih =>
      have h1 : s.drop (c + 1) = xs ++ Y := drop_tail _ _ _ _ (by simpa using h)
      have h2 := ih (c + 1) h1
      have h3 : c + (x :: xs).length = c + 1 + xs.length := by
        simp [List.length_cons]; omega
      rw [h3]
      exact h2

theorem drop_none (s : List Char) (c : Nat) (h : s.drop c = []) : s.length ≤ c :=
  List.drop_eq_nil_iff.mp h

/-! Lemmas about the primitive cursor operations. -/

theorem read_at (s : List Char) (c : Nat) (ch : Char) (tl : List Char)
    (h : s.drop c = ch :: tl) : read s c = .ok ch := by
  unfold read
  rw [drop_head s c ch tl h]

theorem read_none (s : List Char) (c : Nat) (h : s.length ≤ c) : read s c = .error .Eof := by
  unfold read
  rw [List.getElem?_eq_none h]

theorem consume_at (s : List Char) (c : Nat) (ch : Char) (tl : List Char)
    (h : s.drop c = ch :: tl) : consume s c = (.ok ch, c + 1) := by
  unfold consume
  rw [read_at s c ch tl h]

theorem consume_none (s : List Char) (c : Nat) (h : s.length ≤ c) :
    consume s c = (.error .Eof, c) := by
  unfold consume
  rw [read_none s c h]

theorem consumeCheck_at (s : List Char) (c : Nat) (ch : Char) (tl : List Char)
    (h : s.drop c = ch :: tl) : consumeCheck s c ch = (.ok (), c + 1) := by
  unfold consumeCheck
  rw [consume_at s c ch tl h]
  simp

theorem consumeCheck_ne (s : List Char) (c : Nat) (got expected : Char) (tl : List Char)
    (h : s.drop c = got :: tl) (hne : got ≠ expected) :
    consumeCheck s c expected = (.error (.InvalidChar expected got), c + 1) := by
  unfold consumeCheck
  rw [consume_at s c got tl h]
  simp [hne]

theorem consumeCheck_none (s : List Char) (c : Nat) (expected : Char) (h : s.length ≤ c) :
    consumeCheck s c expected = (.error .Eof, c) := by
  unfold consumeCheck
  rw [consume_none s c h]

/-! Lemmas about `chop`. -/

theorem chop_ge (s : List Char) (c : Nat) : c ≤ chop s c := by
  rw [chop]
  split
  · split
    · have := chop_ge s (c + 1)
      omega
    · exact Nat.le_refl c
  · exact Nat.le_refl c
termination_by s.length - c
decreasing_by
  rename_i h _
  have hc : c < s.length := by
    by_contra hc
    rw [List.getElem?_eq_none (by omega)] at h
    cases h
  omega

theorem chop_le (s : List Char) (c : Nat) (h : c ≤ s.length) : chop s c ≤ s.length := by
  rw [chop]
  split
  · rename_i ch hget
    have hc : c < s.length := by
      by_contra hc
      rw [List.getElem?_eq_none (by omega)] at hget
      cases hget
    split
    · exact chop_le s (c + 1) (by omega)
    · exact h
  · exact h
termination_by s.length - c
decreasing_by
  rename_i hget _
  have hc : c < s.length := by
    by_contra hc
    rw [List.getElem?_eq_none (by omega)] at hget
    cases hget
  omega

theorem chop_stop (s : List Char) (c : Nat) (ch : Char)
    (hget : s[c]? = some ch) (hws : ch.isWhitespace = false) : chop s c = c := by
  rw [chop, hget]
  simp [hws]

theorem chop_past_end (s : List Char) (c : Nat) (h : s.length ≤ c) : chop s c = c := by
  rw [chop, List.getElem?_eq_none h]

theorem chop_ws_step (s : List Char) (c : Nat) (ch : Char)
    (hget : s[c]? = some ch) (hws : ch.isWhitespace = true) : chop s c = chop s (c + 1) := by
  conv_lhs => rw [chop]
  rw [hget]
  simp [hws]

/-- Predicate: the remaining text does not begin with whitespace. -/
def headNonWs : List Char → Prop
  | [] => True
  | ch :: _ => ch.isWhitespace = false

theorem chop_run (s : List Char) (ws tl : List Char)
    (hws : ∀ x ∈ ws, x.isWhitespace = true) (htl : headNonWs tl) :
    ∀ c, s.drop c = ws ++ tl → chop s c = c + ws.length := by
  induction ws with
  | nil =>
      intro c h
      simp only [List.nil_append] at h
      match tl, htl with
      | [], _ =>
          simpa using chop_past_end s c (drop_none s c h)
      | ch :: tl', htl =>
          simpa using chop_stop s c ch (drop_head s c ch tl' h) htl
  | cons w ws' ih =>
      intro c h
      have hs : s.drop c = w :: (ws' ++ tl) := by simpa using h
      have h1 := chop_ws_step s c w (drop_head _ _ _ _ hs) (hws w (by simp))
      have h2 := ih (fun x hx => hws x (by simp [hx])) (c + 1) (drop_tail _ _ _ _ hs)
      rw [h1, h2]
      simp [List.length_cons]
      omega

theorem chop_result (s : List Char) (c : Nat) (ch : Char)
    (hget : s[chop s c]? = some ch) : ch.isWhitespace = false := by
  rw [chop] at hget
  revert hget
  split
  · rename_i ch' hget'
    split
    · intro hget
      exact chop_result s (c + 1) ch hget
    · rename_i hws
      intro hget
      rw [hget'] at hget
      cases hget
      simpa using hws
  · rename_i hget'
    intro hget
    rw [hget'] at hget
    cases hget
termination_by s.length - c
decreasing_by
  rename_i hget' _
  have hc : c < s.length := by
    by_contra hc
    rw [List.getElem?_eq_none (by omega)] at hget'
    cases hget'
  omega

theorem chop_idem (s : List Char) (c : Nat) : chop s (chop s c) = chop s c := by
  match hget : s[chop s c]? with
  | some ch => exact chop_stop s (chop s c) ch hget (chop_result s c ch hget)
  | none =>
      refine chop_past_end s (chop s c) ?_
      by_contra hc
      rw [List.getElem?_eq_none_iff] at hget
      omega

/-! Run lemmas for the scalar accumulation loops. -/

theorem stringLoop_run (s : List Char) (body rest : List Char) (hq : '"' ∉ body) :
    ∀ c text, s.drop c = body ++ '"' :: rest →
    stringLoop s c text = (.ok (text ++ body), c + body.length + 1) := by
  induction body with
  | nil =>
      intro c text h
      simp only [List.nil_append] at h
      have hlt := drop_lt _ _ _ _ h
      rw [stringLoop, dif_pos hlt, if_pos (drop_get _ _ _ _ h hlt)]
      simp
  | cons b bs ih =>
      intro c text h
      have hs : s.drop c = b :: (bs ++ '"' :: rest) := by simpa using h
      have hlt := drop_lt _ _ _ _ hs
      have hb : s[c] = b := drop_get _ _ _ _ hs hlt
      have hbq : b ≠ '"' := by
        intro hbq
        exact hq (by simp [hbq])
      rw [stringLoop, dif_pos hlt, if_neg (by rw [hb]; exact hbq), hb]
      have := ih (fun hin => hq (by simp [hin])) (c + 1) (text ++ [b]) (drop_tail _ _ _ _ hs)
      rw [this]
      simp only [List.append_assoc, List.singleton_append, List.length_cons]
      congr 1
      omega

theorem parseString_run (s : List Char) (body rest : List Char) (hq : '"' ∉ body)
    (c : Nat) (h : s.drop c = '"' :: (body ++ '"' :: rest)) :
    parseString s c = (.ok body, c + body.length + 2) := by
  unfold parseString
  rw [consumeCheck_at s c '"' _ h]
  show stringLoop s (c + 1) [] = _
  rw [stringLoop_run s body rest hq (c + 1) [] (drop_tail _ _ _ _ h)]
  simp only [List.nil_append]
  congr 1
  omega

/-- A quote-free buffer. -/
theorem stringLoop_noend (s : List Char) (body : List Char) (hq : '"' ∉ body) :
    ∀ c text, s.drop c = body → stringLoop s c text = (.error .NoEnd, c + body.length) := by
  induction body with
  | nil =>
      intro c text h
      rw [stringLoop, dif_neg (by have := drop_none s c h; omega)]
      simp
  | cons b bs ih =>
      intro c text h
      have hlt := drop_lt _ _ _ _ h
      have hb : s[c] = b := drop_get _ _ _ _ h hlt
      have hbq : b ≠ '"' := by
        intro hbq
        exact hq (by simp [hbq])
      rw [stringLoop, dif_pos hlt, if_neg (by rw [hb]; exact hbq)]
      rw [ih (fun hin => hq (by simp [hin])) (c + 1) _ (drop_tail _ _ _ _ h)]
      simp only [List.length_cons]
      congr 1
      omega

/-- Characters that stop the number loop. -/
def headNotNum : List Char → Prop
  | [] => True
  | ch :: _ => ch.isDigit = false ∧ ch ≠ '.'

/-- Characters that stop the word loop. -/
def headNotAlpha : List Char → Prop
  | [] => True
  | ch :: _ => ch.isAlpha = false

theorem numLoop_digits (s : List Char) (ds : List Char)
    (hds : ∀ x ∈ ds, x.isDigit = true) :
    ∀ c fp text rest, s.drop c = ds ++ rest →
    numLoop s c fp text = numLoop s (c + ds.length) fp (text ++ ds) := by
  induction ds with
  | nil => intro c fp text rest h; simp
  | cons d ds' ih =>
      intro c fp text rest h
      have hs : s.drop c = d :: (ds' ++ rest) := by simpa using h
      have hlt := drop_lt _ _ _ _ hs
      have hd : s[c] = d := drop_get _ _ _ _ hs hlt
      have hdig : d.isDigit = true := hds d (by simp)
      have hdot : d ≠ '.' := by
        intro hdot
        rw [hdot] at hdig
        simp at hdig
      rw [numLoop, dif_pos hlt, if_neg (by rw [hd]; exact hdot), if_pos (by rw [hd]; exact hdig), hd]
      rw [ih (fun x hx => hds x (by simp [hx])) (c + 1) fp (text ++ [d]) rest (drop_tail _ _ _ _ hs)]
      simp only [List.append_assoc, List.singleton_append, List.length_cons]
      congr 1
      omega

theorem numLoop_stop (s : List Char) (c : Nat) (fp : Bool) (text rest : List Char)
    (h : s.drop c = rest) (hstop : headNotNum rest) :
    numLoop s c fp text = (.ok text, c) := by
  match rest, hstop with
  | [], _ =>
      rw [numLoop, dif_neg (by have := drop_none s c h; omega)]
  | ch :: tl, hstop =>
      have hlt := drop_lt _ _ _ _ h
      have hch : s[c] = ch := drop_get _ _ _ _ h hlt
      rw [numLoop, dif_pos hlt, if_neg (by rw [hch]; exact hstop.2), if_neg (by rw [hch]; simp [hstop.1])]

theorem numLoop_first_dot (s : List Char) (c : Nat) (text tl : List Char)
    (h : s.drop c = '.' :: tl) :
    numLoop s c false text = numLoop s (c + 1) true (text ++ ['.']) := by
  have hlt := drop_lt _ _ _ _ h
  have hch : s[c] = '.' := drop_get _ _ _ _ h hlt
  rw [numLoop, dif_pos hlt, if_pos (by rw [hch])]
  simp

theorem numLoop_second_dot (s : List Char) (c : Nat) (text tl : List Char)
    (h : s.drop c = '.' :: tl) :
    numLoop s c true text = (.error (.InvalidNumber (text ++ ['.'])), c) := by
  have hlt := drop_lt _ _ _ _ h
  have hch : s[c] = '.' := drop_get _ _ _ _ h hlt
  rw [numLoop, dif_pos hlt, if_pos (by rw [hch])]
  simp

theorem wordLoop_alpha (s : List Char) (al : List Char)
    (hal : ∀ x ∈ al, x.isAlpha = true) :
    ∀ c text rest, s.drop c = al ++ rest →
    wordLoop s c text = wordLoop s (c + al.length) (text ++ al) := by
  induction al with
  | nil => intro c text rest h; simp
  | cons a al' ih =>
      intro c text rest h
      have hs : s.drop c = a :: (al' ++ rest) := by simpa using h
      have hlt := drop_lt _ _ _ _ hs
      have ha : s[c] = a := drop_get _ _ _ _ hs hlt
      rw [wordLoop, dif_pos hlt, if_pos (by rw [ha]; exact hal a (by simp)), ha]
      rw [ih (fun x hx => hal x (by simp [hx])) (c + 1) (text ++ [a]) rest (drop_tail _ _ _ _ hs)]
      simp only [List.append_assoc, List.singleton_append, List.length_cons]
      congr 1
      omega

theorem wordLoop_stop (s : List Char) (c : Nat) (text rest : List Char)
    (h : s.drop c = rest) (hstop : headNotAlpha rest) :
    wordLoop s c text = (text, c) := by
  match rest, hstop with
  | [], _ =>
      rw [wordLoop, dif_neg (by have := drop_none s c h; omega)]
  | ch :: tl, hstop =>
      have hlt := drop_lt _ _ _ _ h
      have hch : s[c] = ch := drop_get _ _ _ _ h hlt
      have hstop' : ch.isAlpha = false := hstop
      rw [wordLoop, dif_pos hlt, if_neg (by rw [hch, hstop']; simp)]

/-! Lemmas about `splitAtDot` and `parseNumText`. -/

theorem splitAtDot_nodot (ds : List Char) (h : '.' ∉ ds) : splitAtDot ds = (ds, none) := by
  induction ds with
  | nil => rfl
  | cons d ds' ih =>
      have hd : d ≠ '.' := by intro hd; exact h (by simp [hd])
      rw [splitAtDot, if_neg hd, ih (fun hin => h (by simp [hin]))]

theorem splitAtDot_dot (d1 d2 : List Char) (h : '.' ∉ d1) :
    splitAtDot (d1 ++ '.' :: d2) = (d1, some d2) := by
  induction d1 with
  | nil => simp [splitAtDot]
  | cons d ds' ih =>
      have hd : d ≠ '.' := by intro hd; exact h (by simp [hd])
      simp only [List.cons_append, splitAtDot, if_neg hd, List.append_eq,
        ih (fun hin => h (by simp [hin]))]

theorem digits_no_dot (ds : List Char) (hds : ∀ x ∈ ds, x.isDigit = true) : '.' ∉ ds := by
  intro hin
  have := hds '.' hin
  simp at this

theorem parseNumText_int (ds : List Char) (hne : ds ≠ []) (hds : ∀ x ∈ ds, x.isDigit = true) :
    parseNumText ds = some (numValue ds none) := by
  unfold parseNumText
  rw [splitAtDot_nodot ds (digits_no_dot ds hds)]
  simp only []
  rw [if_pos]
  exact ⟨hne, by rw [List.all_eq_true]; intro x hx; exact hds x hx⟩

theorem parseNumText_frac (d1 d2 : List Char) (hne : d1 ≠ [])
    (h1 : ∀ x ∈ d1, x.isDigit = true) (h2 : ∀ x ∈ d2, x.isDigit = true) :
    parseNumText (d1 ++ '.' :: d2) = some (numValue d1 (some d2)) := by
  unfold parseNumText
  rw [splitAtDot_dot d1 d2 (digits_no_dot d1 h1)]
  simp only []
  rw [if_pos]
  refine ⟨Or.inl hne, ?_, ?_⟩
  · rw [List.all_eq_true]; intro x hx; exact h1 x hx
  · rw [List.all_eq_true]; intro x hx; exact h2 x hx

/-! A grammar of well-formed documents with explicit whitespace at every
gap the parser tolerates.  `render` produces the concrete text, `denote`
the value tree the parser is expected to build, independent of the
whitespace fields.  This is the harness for the universal claims about
well-formed input (whitespace insensitivity, trailing garbage). -/

mutual

inductive WVal : Type where
  | wnull
  | wtrue
  | wfalse
  | wnum (ip : List Char) (fr : Option (List Char))
  | wstr (text : List Char)
  | warr (ws : List Char) (items : WItems)
  | wobj (ws : List Char) (mems : WMems)

inductive WItems : Type where
  | empty
  | more (v : WVal) (t : WTail)

inductive WTail : Type where
  | last (ws : List Char)
  | comma (ws1 ws2 : List Char) (v : WVal) (t : WTail)

inductive WMems : Type where
  | empty
  | more (k : List Char) (ws1 ws2 : List Char) (v : WVal) (t : WMTail)

inductive WMTail : Type where
  | last (ws : List Char)
  | comma (ws1 ws2 : List Char) (k : List Char) (ws3 ws4 : List Char) (v : WVal) (t : WMTail)

end

/-- Text of the fractional part of a number: nothing, or a dot followed
by the (possibly empty) fractional digits. -/
def renderFr : Option (List Char) → List Char
  | none => []
  | some f => '.' :: f

mutual

/-- Concrete text of a value.  For containers the whitespace after the
opening delimiter is a field; the whitespace around separators and before
the closing delimiter lives in the item/member tails. -/
def renderVal : WVal → List Char
  | .wnull => ['n', 'u', 'l', 'l']
  | .wtrue => ['t', 'r', 'u', 'e']
  | .wfalse => ['f', 'a', 'l', 's', 'e']
  | .wnum ip fr => ip ++ renderFr fr
  | .wstr t => '"' :: t ++ ['"']
  | .warr ws items => '[' :: (ws ++ renderItems items)
  | .wobj ws mems => '\x7b' :: (ws ++ renderMems mems)

/-- Item list of an array, including the closing bracket. -/
def renderItems : WItems → List Char
  | .empty => [']']
  | .more v t => renderVal v ++ renderTail t

/-- What follows an array element: either whitespace and the closing
bracket, or whitespace, a comma, whitespace and a further element. -/
def renderTail : WTail → List Char
  | .last ws => ws ++ [']']
  | .comma ws1 ws2 v t => ws1 ++ ',' :: (ws2 ++ renderVal v ++ renderTail t)

/-- One object member: quoted key, whitespace, colon, whitespace, value. -/
def renderMem (k : List Char) (ws1 ws2 : List Char) (v : WVal) : List Char :=
  '"' :: k ++ '"' :: (ws1 ++ ':' :: (ws2 ++ renderVal v))

/-- Member list of an object, including the closing brace. -/
def renderMems : WMems → List Char
  | .empty => ['\x7d']
  | .more k ws1 ws2 v t => renderMem k ws1 ws2 v ++ renderMTail t

/-- What follows an object member: either whitespace and the closing
brace, or whitespace, a comma, whitespace and a further member. -/
def renderMTail : WMTail → List Char
  | .last ws => ws ++ ['\x7d']
  | .comma ws1 ws2 k ws3 ws4 v t => ws1 ++ ',' :: (ws2 ++ renderMem k ws3 ws4 v ++ renderMTail t)

end

/-- The whitespace characters the claims insert between tokens. -/
def wsChars : List Char := [' ', '\t', '\n', '\r']

mutual

/-- Well-formedness: whitespace fields hold only whitespace, keys and
string bodies are quote-free, numbers are digit runs (with a possibly
empty fractional digit run). -/
def wfVal : WVal → Prop
  | .wnull => True
  | .wtrue => True
  | .wfalse => True
  | .wnum ip fr =>
      ip ≠ [] ∧ (∀ x ∈ ip, x.isDigit = true) ∧
      (match fr with | none => True | some f => ∀ x ∈ f, x.isDigit = true)
  | .wstr t => '"' ∉ t
  | .warr ws items => (∀ x ∈ ws, x ∈ wsChars) ∧ wfItems items
  | .wobj ws mems => (∀ x ∈ ws, x ∈ wsChars) ∧ wfMems mems

def wfItems : WItems → Prop
  | .empty => True
  | .more v t => wfVal v ∧ wfTail t

def wfTail : WTail → Prop
  | .last ws => ∀ x ∈ ws, x ∈ wsChars
  | .comma ws1 ws2 v t =>
      (∀ x ∈ ws1, x ∈ wsChars) ∧ (∀ x ∈ ws2, x ∈ wsChars) ∧ wfVal v ∧ wfTail t

def wfMems : WMems → Prop
  | .empty => True
  | .more k ws1 ws2 v t =>
      '"' ∉ k ∧ (∀ x ∈ ws1, x ∈ wsChars) ∧ (∀ x ∈ ws2, x ∈ wsChars) ∧ wfVal v ∧ wfMTail t

def wfMTail : WMTail → Prop
  | .last ws => ∀ x ∈ ws, x ∈ wsChars
  | .comma ws1 ws2 k ws3 ws4 v t =>
      (∀ x ∈ ws1, x ∈ wsChars) ∧ (∀ x ∈ ws2, x ∈ wsChars) ∧ '"' ∉ k ∧
      (∀ x ∈ ws3, x ∈ wsChars) ∧ (∀ x ∈ ws4, x ∈ wsChars) ∧ wfVal v ∧ wfMTail t

end

mutual

/-- The value tree a well-formed document denotes; ignores all whitespace
fields, and builds objects through `insertKV` in member order, exactly as
the object loop does. -/
def denoteVal : WVal → JsonValue
  | .wnull => .null
  | .wtrue => .bool true
  | .wfalse => .bool false
  | .wnum ip fr => .number (numValue ip fr)
  | .wstr t => .str t
  | .warr _ items => .arr (denoteItems items)
  | .wobj _ mems => .obj (foldMems [] mems)

def denoteItems : WItems → List JsonValue
  | .empty => []
  | .more v t => denoteVal v :: collectTail t

def collectTail : WTail → List JsonValue
  | .last _ => []
  | .comma _ _ v t => denoteVal v :: collectTail t

def foldMems (acc : List (List Char × JsonValue)) : WMems → List (List Char × JsonValue)
  | .empty => acc
  | .more k _ _ v t => foldMTail (insertKV acc k (denoteVal v)) t

def foldMTail (acc : List (List Char × JsonValue)) : WMTail → List (List Char × JsonValue)
  | .last _ => acc
  | .comma _ _ k _ _ v t => foldMTail (insertKV acc k (denoteVal v)) t

end

mutual

/-- Fuel needed to parse a rendered value (the recursion depth of the
reader call tree; sibling calls share fuel, so branching takes a max). -/
def needVal : WVal → Nat
  | .warr _ items => 2 + needItems items
  | .wobj _ mems => 2 + needMems mems
  | _ => 1

def needItems : WItems → Nat
  | .empty => 1
  | .more v t => 1 + max (needVal v) (needTailC t)

def needTailC : WTail → Nat
  | .last _ => 0
  | .comma _ _ v t => 1 + max (needVal v) (needTailC t)

def needMems : WMems → Nat
  | .empty => 1
  | .more _ _ _ v t => 1 + max (needVal v) (needMTailC t)

def needMTailC : WMTail → Nat
  | .last _ => 0
  | .comma _ _ _ _ _ v t => 1 + max (needVal v) (needMTailC t)

end

mutual

/-- Structural measure used for the termination of the mutual proofs. -/
def mVal : WVal → Nat
  | .warr _ items => mItems items + 2
  | .wobj _ mems => mMems mems + 2
  | _ => 1

def mItems : WItems → Nat
  | .empty => 1
  | .more v t => mVal v + mTail t + 2

def mTail : WTail → Nat
  | .last _ => 1
  | .comma _ _ v t => mVal v + mTail t + 2

def mMems : WMems → Nat
  | .empty => 1
  | .more _ _ _ v t => mVal v + mMTail t + 2

def mMTail : WMTail → Nat
  | .last _ => 1
  | .comma _ _ _ _ _ v t => mVal v + mMTail t + 2

end

theorem mVal_pos (v : WVal) : 1 ≤ mVal v := by
  cases v <;> simp [mVal]

theorem mTail_pos (t : WTail) : 1 ≤ mTail t := by
  cases t <;> simp [mTail]

theorem mMTail_pos (t : WMTail) : 1 ≤ mMTail t := by
  cases t <;> simp [mMTail]

/-! Character classification facts used when stepping through rendered
text.  Whitespace fields range over the four concrete characters of
`wsChars`, so every fact reduces to a finite case check. -/

theorem ws_mem_isWs (ch : Char) (h : ch ∈ wsChars) : ch.isWhitespace = true := by
  fin_cases h <;> decide

theorem ws_all_isWs (ws : List Char) (h : ∀ x ∈ ws, x ∈ wsChars) :
    ∀ x ∈ ws, x.isWhitespace = true :=
  fun x hx => ws_mem_isWs x (h x hx)

theorem digit_not_ws (ch : Char) (h : ch.isDigit = true) : ch.isWhitespace = false := by
  revert h
  unfold Char.isDigit Char.isWhitespace
  intro h
  simp only [Bool.and_eq_true, decide_eq_true_eq] at h
  simp only [Bool.or_eq_false_iff, decide_eq_false_iff_not]
  refine ⟨⟨⟨?_, ?_⟩, ?_⟩, ?_⟩ <;> intro heq <;> rw [heq] at h <;> revert h <;> decide

theorem digit_ne (ch : Char) (h : ch.isDigit = true) (other : Char)
    (hother : other.isDigit = false) : ch ≠ other := by
  intro heq
  rw [heq, hother] at h
  cases h

/-- The first character of a rendered well-formed value: never whitespace,
never a closing delimiter, a separator or a colon. -/
def goodHead (ch : Char) : Prop :=
  ch.isWhitespace = false ∧ ch ≠ ']' ∧ ch ≠ '\x7d' ∧ ch ≠ ',' ∧ ch ≠ ':'

theorem renderVal_head (v : WVal) (hw : wfVal v) :
    ∃ ch tl, renderVal v = ch :: tl ∧ goodHead ch := by
  cases v with
  | wnull =>
      exact ⟨'n', ['u', 'l', 'l'], by simp [renderVal], by unfold goodHead; decide⟩
  | wtrue =>
      exact ⟨'t', ['r', 'u', 'e'], by simp [renderVal], by unfold goodHead; decide⟩
  | wfalse =>
      exact ⟨'f', ['a', 'l', 's', 'e'], by simp [renderVal], by unfold goodHead; decide⟩
  | wnum ip fr =>
      obtain ⟨hne, hdig, -⟩ := hw
      match ip, hne with
      | d :: ip', _ =>
          have hd : d.isDigit = true := hdig d (by simp)
          refine ⟨d, ip' ++ renderFr fr,
            by simp [renderVal], digit_not_ws d hd, ?_, ?_, ?_, ?_⟩ <;>
            exact digit_ne d hd _ (by decide)
  | wstr t =>
      exact ⟨'"', t ++ ['"'], by simp [renderVal], by unfold goodHead; decide⟩
  | warr ws items =>
      exact ⟨'[', ws ++ renderItems items, by simp [renderVal], by unfold goodHead; decide⟩
  | wobj ws mems =>
      exact ⟨'\x7b', ws ++ renderMems mems, by simp [renderVal], by unfold goodHead; decide⟩

theorem goodHead_headNonWs (ch : Char) (tl rest : List Char) (h : goodHead ch) :
    headNonWs ((ch :: tl) ++ rest) := h.1

/-- Heads that can follow a value inside a container: whitespace, a comma
or a closing delimiter.  They stop the number and word loops. -/
def sepHead : List Char → Prop
  | [] => True
  | ch :: _ => ch ∈ wsChars ∨ ch = ',' ∨ ch = ']' ∨ ch = '\x7d'

theorem headNotAlpha_cons (ch : Char) (tl : List Char) :
    headNotAlpha (ch :: tl) ↔ ch.isAlpha = false := Iff.rfl

theorem headNotNum_cons (ch : Char) (tl : List Char) :
    headNotNum (ch :: tl) ↔ (ch.isDigit = false ∧ ch ≠ '.') := Iff.rfl

theorem sepHead_cons (ch : Char) (tl : List Char) :
    sepHead (ch :: tl) ↔ (ch ∈ wsChars ∨ ch = ',' ∨ ch = ']' ∨ ch = '\x7d') := Iff.rfl

theorem sepHead_notNum (r : List Char) (h : sepHead r) : headNotNum r := by
  match r, h with
  | [], _ => trivial
  | ch :: tl, h =>
      rw [headNotNum_cons]
      rw [sepHead_cons] at h
      rcases h with h | h | h | h
      · fin_cases h <;> exact ⟨by decide, by decide⟩
      all_goals (rw [h]; exact ⟨by decide, by decide⟩)

theorem sepHead_notAlpha (r : List Char) (h : sepHead r) : headNotAlpha r := by
  match r, h with
  | [], _ => trivial
  | ch :: tl, h =>
      rw [headNotAlpha_cons]
      rw [sepHead_cons] at h
      rcases h with h | h | h | h
      · fin_cases h <;> decide
      all_goals (rw [h]; decide)

theorem sepHead_renderTail (t : WTail) (hw : wfTail t) (rest : List Char) :
    sepHead (renderTail t ++ rest) := by
  cases t with
  | last ws =>
      have hr : renderTail (.last ws) = ws ++ [']'] := by simp [renderTail]
      rw [hr]
      match ws with
      | [] =>
          rw [List.nil_append, List.singleton_append, sepHead_cons]
          exact Or.inr (Or.inr (Or.inl rfl))
      | w :: ws' =>
          rw [List.cons_append, List.cons_append, sepHead_cons]
          exact Or.inl (hw w (by simp))
  | comma ws1 ws2 v t =>
      have hr : renderTail (.comma ws1 ws2 v t) =
          ws1 ++ ',' :: (ws2 ++ renderVal v ++ renderTail t) := by simp [renderTail]
      rw [hr]
      match ws1 with
      | [] =>
          rw [List.nil_append, List.cons_append, sepHead_cons]
          exact Or.inr (Or.inl rfl)
      | w :: ws' =>
          rw [List.cons_append, List.cons_append, sepHead_cons]
          exact Or.inl (hw.1 w (by simp))

theorem sepHead_renderMTail (t : WMTail) (hw : wfMTail t) (rest : List Char) :
    sepHead (renderMTail t ++ rest) := by
  cases t with
  | last ws =>
      have hr : renderMTail (.last ws) = ws ++ ['\x7d'] := by simp [renderMTail]
      rw [hr]
      match ws with
      | [] =>
          rw [List.nil_append, List.singleton_append, sepHead_cons]
          exact Or.inr (Or.inr (Or.inr rfl))
      | w :: ws' =>
          rw [List.cons_append, List.cons_append, sepHead_cons]
          exact Or.inl (hw w (by simp))
  | comma ws1 ws2 k ws3 ws4 v t =>
      have hr : renderMTail (.comma ws1 ws2 k ws3 ws4 v t) =
          ws1 ++ ',' :: (ws2 ++ renderMem k ws3 ws4 v ++ renderMTail t) := by
        simp [renderMTail]
      rw [hr]
      match ws1 with
      | [] =>
          rw [List.nil_append, List.cons_append, sepHead_cons]
          exact Or.inr (Or.inl rfl)
      | w :: ws' =>
          rw [List.cons_append, List.cons_append, sepHead_cons]
          exact Or.inl (hw.1 w (by simp))

/-- The loop-stopping condition a rendered value needs from the text that
follows it: bare words must not be followed by an alphabetic character,
numbers must not be followed by a digit or a dot.  Containers and strings
stop at their own closing delimiter. -/
def stopper : WVal → List Char → Prop
  | .wnull, r => headNotAlpha r
  | .wtrue, r => headNotAlpha r
  | .wfalse, r => headNotAlpha r
  | .wnum _ _, r => headNotNum r
  | .wstr _, _ => True
  | .warr _ _, _ => True
  | .wobj _ _, _ => True

theorem stopper_of_sepHead (v : WVal) (r : List Char) (h : sepHead r) : stopper v r := by
  cases v <;> first
    | exact sepHead_notAlpha r h
    | exact sepHead_notNum r h
    | trivial

/-! Run lemmas for the two scalar readers of `parse_next`. -/

theorem numberRead_eq (s : List Char) (c : Nat) (text : List Char) (c' : Nat) (q : Rat)
    (h : numLoop s c false [] = (.ok text, c')) (hq : parseNumText text = some q) :
    numberRead s c = (.ok (.number q), c') := by
  unfold numberRead
  rw [h]
  simp only [hq]

theorem numberRead_run (s : List Char) (c : Nat) (ip : List Char) (fr : Option (List Char))
    (rest : List Char) (hne : ip ≠ []) (hip : ∀ x ∈ ip, x.isDigit = true)
    (hfr : ∀ f, fr = some f → ∀ x ∈ f, x.isDigit = true)
    (hrest : headNotNum rest) (h : s.drop c = (ip ++ renderFr fr) ++ rest) :
    numberRead s c = (.ok (.number (numValue ip fr)), c + (ip ++ renderFr fr).length) := by
  cases fr with
  | none =>
      have h' : s.drop c = ip ++ rest := by simpa [renderFr] using h
      have h1 := numLoop_digits s ip hip c false [] rest h'
      have h2 := numLoop_stop s (c + ip.length) false ([] ++ ip) rest
        (drop_append s c ip rest h') hrest
      have hloop : numLoop s c false [] = (.ok ip, c + ip.length) := by
        rw [h1, h2]; simp
      have hcur : c + (ip ++ renderFr none).length = c + ip.length := by simp [renderFr]
      rw [hcur]
      exact numberRead_eq s c ip (c + ip.length) _ hloop (parseNumText_int ip hne hip)
  | some f =>
      have hf : ∀ x ∈ f, x.isDigit = true := hfr f rfl
      have h' : s.drop c = ip ++ ('.' :: (f ++ rest)) := by
        simpa [renderFr] using h
      have h1 := numLoop_digits s ip hip c false [] ('.' :: (f ++ rest)) h'
      have hdot : s.drop (c + ip.length) = '.' :: (f ++ rest) := drop_append s c ip _ h'
      have h2 := numLoop_first_dot s (c + ip.length) ([] ++ ip) (f ++ rest) hdot
      have hfrest : s.drop (c + ip.length + 1) = f ++ rest := drop_tail _ _ _ _ hdot
      have h3 := numLoop_digits s f hf (c + ip.length + 1) true (([] ++ ip) ++ ['.']) rest hfrest
      have h4 := numLoop_stop s (c + ip.length + 1 + f.length) true
        ((([] ++ ip) ++ ['.']) ++ f) rest (drop_append s (c + ip.length + 1) f rest hfrest) hrest
      have hloop : numLoop s c false [] = (.ok (ip ++ '.' :: f), c + ip.length + 1 + f.length) := by
        rw [h1, h2, h3, h4]; simp
      have hcur : c + (ip ++ renderFr (some f)).length = c + ip.length + 1 + f.length := by
        simp [renderFr]; omega
      rw [hcur]
      exact numberRead_eq s c (ip ++ '.' :: f) _ _ hloop (parseNumText_frac ip f hne hip hf)

theorem wordLoop_full (s : List Char) (c : Nat) (al rest : List Char)
    (hal : ∀ x ∈ al, x.isAlpha = true) (hrest : headNotAlpha rest)
    (h : s.drop c = al ++ rest) : wordLoop s c [] = (al, c + al.length) := by
  rw [wordLoop_alpha s al hal c [] rest h,
    wordLoop_stop s (c + al.length) ([] ++ al) rest (drop_append s c al rest h) hrest]
  simp

theorem wordRead_null (s : List Char) (c : Nat) (rest : List Char)
    (hrest : headNotAlpha rest) (h : s.drop c = ['n', 'u', 'l', 'l'] ++ rest) :
    wordRead s c = (.ok .null, c + 4) := by
  unfold wordRead
  rw [wordLoop_full s c ['n', 'u', 'l', 'l'] rest (by decide) hrest h]
  simp

theorem wordRead_true (s : List Char) (c : Nat) (rest : List Char)
    (hrest : headNotAlpha rest) (h : s.drop c = ['t', 'r', 'u', 'e'] ++ rest) :
    wordRead s c = (.ok (.bool true), c + 4) := by
  unfold wordRead
  rw [wordLoop_full s c ['t', 'r', 'u', 'e'] rest (by decide) hrest h]
  simp

theorem wordRead_false (s : List Char) (c : Nat) (rest : List Char)
    (hrest : headNotAlpha rest) (h : s.drop c = ['f', 'a', 'l', 's', 'e'] ++ rest) :
    wordRead s c = (.ok (.bool false), c + 5) := by
  unfold wordRead
  rw [wordLoop_full s c ['f', 'a', 'l', 's', 'e'] rest (by decide) hrest h]
  simp

/-! Single-step unfolding lemmas for the mutually recursive readers: each
one turns a hypothesis about the upcoming text (and about the results of
the inner calls) into one reduction of the reader body. -/

theorem parseNext_obj (f : Nat) (s : List Char) (c : Nat) (tl : List Char)
    (h : s.drop (chop s c) = '\x7b' :: tl) :
    parseNext (f + 1) s c = parseObject f s (chop s c) := by
  simp only [parseNext]
  rw [read_at s (chop s c) '\x7b' tl h]
  simp

theorem parseNext_arr (f : Nat) (s : List Char) (c : Nat) (tl : List Char)
    (h : s.drop (chop s c) = '[' :: tl) :
    parseNext (f + 1) s c = parseArray f s (chop s c) := by
  simp only [parseNext]
  rw [read_at s (chop s c) '[' tl h]
  simp

theorem parseNext_str (f : Nat) (s : List Char) (c : Nat) (text : List Char) (c' : Nat)
    (tl : List Char) (h : s.drop (chop s c) = '"' :: tl)
    (hps : parseString s (chop s c) = (.ok text, c')) :
    parseNext (f + 1) s c = some (.ok (.str text), c') := by
  simp only [parseNext]
  rw [read_at s (chop s c) '"' tl h]
  simp [hps]

theorem parseNext_num (f : Nat) (s : List Char) (c : Nat) (ch : Char) (tl : List Char)
    (h : s.drop (chop s c) = ch :: tl)
    (h1 : ch ≠ '\x7b') (h2 : ch ≠ '"') (h3 : ch ≠ '[') (hd : ch.isDigit = true) :
    parseNext (f + 1) s c = some (numberRead s (chop s c)) := by
  simp only [parseNext]
  rw [read_at s (chop s c) ch tl h]
  simp [h1, h2, h3, hd]

theorem parseNext_word (f : Nat) (s : List Char) (c : Nat) (ch : Char) (tl : List Char)
    (h : s.drop (chop s c) = ch :: tl)
    (h1 : ch ≠ '\x7b') (h2 : ch ≠ '"') (h3 : ch ≠ '[')
    (hd : ch.isDigit = false) (ha : ch.isAlpha = true) :
    parseNext (f + 1) s c = some (wordRead s (chop s c)) := by
  simp only [parseNext]
  rw [read_at s (chop s c) ch tl h]
  simp [h1, h2, h3, hd, ha]

theorem parseArray_step (f : Nat) (s : List Char) (c : Nat) (tl : List Char)
    (h : s.drop c = '[' :: tl) :
    parseArray (f + 1) s c = arrLoop f s (chop s (c + 1)) false [] := by
  simp only [parseArray]
  rw [consumeCheck_at s c '[' tl h]

theorem parseObject_step (f : Nat) (s : List Char) (c : Nat) (tl : List Char)
    (h : s.drop c = '\x7b' :: tl) :
    parseObject (f + 1) s c = objLoop f s (chop s (c + 1)) false [] := by
  simp only [parseObject]
  rw [consumeCheck_at s c '\x7b' tl h]

theorem arrLoop_close (f : Nat) (s : List Char) (c : Nat) (acc : List JsonValue)
    (tl : List Char) (h : s.drop c = ']' :: tl) :
    arrLoop (f + 1) s c false acc = some (.ok (.arr acc), chop s (c + 1)) := by
  simp only [arrLoop]
  rw [if_pos (drop_lt _ _ _ _ h), read_at s c ']' tl h]
  simp

theorem arrLoop_trailing (f : Nat) (s : List Char) (c : Nat) (acc : List JsonValue)
    (tl : List Char) (h : s.drop c = ']' :: tl) :
    arrLoop (f + 1) s c true acc = some (.error .Unknown, c) := by
  simp only [arrLoop]
  rw [if_pos (drop_lt _ _ _ _ h), read_at s c ']' tl h]
  simp

theorem arrLoop_step (f : Nat) (s : List Char) (c : Nat) (eN : Bool) (acc : List JsonValue)
    (ch : Char) (tl : List Char) (h : s.drop c = ch :: tl) (hne : ch ≠ ']')
    (v : JsonValue) (c1 : Nat) (hpn : parseNext f s c = some (.ok v, c1))
    (next : Char) (c3 : Nat) (hcons : consume s (chop s c1) = (.ok next, c3)) :
    arrLoop (f + 1) s c eN acc =
      (if next = ',' then arrLoop f s (chop s c3) true (acc ++ [v])
       else if next = ']' then some (.ok (.arr (acc ++ [v])), chop s c3)
       else some (.error .NoEnd, c3)) := by
  simp only [arrLoop]
  rw [if_pos (drop_lt _ _ _ _ h), read_at s c ch tl h]
  simp [hne, hpn, hcons]

theorem objLoop_close (f : Nat) (s : List Char) (c : Nat)
    (acc : List (List Char × JsonValue)) (tl : List Char) (h : s.drop c = '\x7d' :: tl) :
    objLoop (f + 1) s c false acc = some (.ok (.obj acc), c + 1) := by
  simp only [objLoop]
  rw [if_pos (drop_lt _ _ _ _ h), read_at s c '\x7d' tl h]
  simp

theorem objLoop_trailing (f : Nat) (s : List Char) (c : Nat)
    (acc : List (List Char × JsonValue)) (tl : List Char) (h : s.drop c = '\x7d' :: tl) :
    objLoop (f + 1) s c true acc = some (.error .Unknown, c) := by
  simp only [objLoop]
  rw [if_pos (drop_lt _ _ _ _ h), read_at s c '\x7d' tl h]
  simp

theorem objLoop_step (f : Nat) (s : List Char) (c : Nat) (eN : Bool)
    (acc : List (List Char × JsonValue)) (ch : Char) (tl : List Char)
    (h : s.drop c = ch :: tl) (hne : ch ≠ '\x7d')
    (key : List Char) (c1 : Nat) (hps : parseString s c = (.ok key, c1))
    (c2 : Nat) (hcc : consumeCheck s (chop s c1) ':' = (.ok (), c2))
    (v : JsonValue) (c3 : Nat) (hpn : parseNext f s (chop s c2) = some (.ok v, c3))
    (next : Char) (c5 : Nat) (hcons : consume s (chop s c3) = (.ok next, c5)) :
    objLoop (f + 1) s c eN acc =
      (if next = ',' then objLoop f s (chop s c5) true (insertKV acc key v)
       else if next = '\x7d' then some (.ok (.obj (insertKV acc key v)), c5)
       else some (.error .NoEnd, c5)) := by
  simp only [objLoop]
  rw [if_pos (drop_lt _ _ _ _ h), read_at s c ch tl h]
  simp [hne, hps, hcc, hpn, hcons]

theorem needVal_pos (v : WVal) : 1 ≤ needVal v := by
  cases v <;> simp [needVal] <;> omega

theorem headNonWs_cons (ch : Char) (tl : List Char) :
    headNonWs (ch :: tl) ↔ ch.isWhitespace = false := Iff.rfl

theorem renderItems_headNonWs (items : WItems) (hi : wfItems items) (rest : List Char) :
    headNonWs (renderItems items ++ rest) := by
  cases items with
  | empty =>
      rw [show renderItems .empty = [']'] from by simp [renderItems], List.singleton_append,
        headNonWs_cons]
      decide
  | more v t =>
      obtain ⟨hv, htl⟩ := hi
      obtain ⟨ch, tl, hrv, hgh⟩ := renderVal_head v hv
      rw [show renderItems (.more v t) = renderVal v ++ renderTail t from by simp [renderItems],
        hrv, List.cons_append, List.cons_append, headNonWs_cons]
      exact hgh.1

theorem renderMems_headNonWs (ms : WMems) (hm : wfMems ms) (rest : List Char) :
    headNonWs (renderMems ms ++ rest) := by
  cases ms with
  | empty =>
      rw [show renderMems .empty = ['\x7d'] from by simp [renderMems], List.singleton_append,
        headNonWs_cons]
      decide
  | more k ws1 ws2 v t =>
      rw [show renderMems (.more k ws1 ws2 v t) = renderMem k ws1 ws2 v ++ renderMTail t from by
          simp [renderMems],
        show renderMem k ws1 ws2 v = '"' :: (k ++ '"' :: (ws1 ++ ':' :: (ws2 ++ renderVal v)))
          from by simp [renderMem],
        List.cons_append, List.cons_append, headNonWs_cons]
      decide

mutual

theorem completeNext (v : WVal) (hw : wfVal v) :
    ∀ fuel s c rest, needVal v ≤ fuel → s.drop c = renderVal v ++ rest → stopper v rest →
    ∃ c', parseNext fuel s c = some (.ok (denoteVal v), c') ∧
      c + (renderVal v).length ≤ c' ∧ chop s c' = chop s (c + (renderVal v).length) :=
  match v, hw with
  | .wnull, _ => by
      intro fuel s c rest hfuel hdrop hstop
      have hd : s.drop c = 'n' :: (['u', 'l', 'l'] ++ rest) := by simpa [renderVal] using hdrop
      have hch : chop s c = c := chop_stop s c 'n' (drop_head _ _ _ _ hd) (by decide)
      obtain ⟨f, rfl⟩ : ∃ f, fuel = f + 1 :=
        ⟨fuel - 1, by have := needVal_pos .wnull; omega⟩
      have hpn := parseNext_word f s c 'n' (['u', 'l', 'l'] ++ rest) (by rw [hch]; exact hd)
        (by decide) (by decide) (by decide) (by decide) (by decide)
      have hwr := wordRead_null s c rest hstop (by simpa using hd)
      refine ⟨c + 4, ?_, ?_, ?_⟩
      · rw [hpn, hch, hwr]
        simp [denoteVal]
      · simp [renderVal]
      · simp [renderVal]
  | .wtrue, _ => by
      intro fuel s c rest hfuel hdrop hstop
      have hd : s.drop c = 't' :: (['r', 'u', 'e'] ++ rest) := by simpa [renderVal] using hdrop
      have hch : chop s c = c := chop_stop s c 't' (drop_head _ _ _ _ hd) (by decide)
      obtain ⟨f, rfl⟩ : ∃ f, fuel = f + 1 :=
        ⟨fuel - 1, by have := needVal_pos .wtrue; omega⟩
      have hpn := parseNext_word f s c 't' (['r', 'u', 'e'] ++ rest) (by rw [hch]; exact hd)
        (by decide) (by decide) (by decide) (by decide) (by decide)
      have hwr := wordRead_true s c rest hstop (by simpa using hd)
      refine ⟨c + 4, ?_, ?_, ?_⟩
      · rw [hpn, hch, hwr]
        simp [denoteVal]
      · simp [renderVal]
      · simp [renderVal]
  | .wfalse, _ => by
      intro fuel s c rest hfuel hdrop hstop
      have hd : s.drop c = 'f' :: (['a', 'l', 's', 'e'] ++ rest) := by
        simpa [renderVal] using hdrop
      have hch : chop s c = c := chop_stop s c 'f' (drop_head _ _ _ _ hd) (by decide)
      obtain ⟨f, rfl⟩ : ∃ f, fuel = f + 1 :=
        ⟨fuel - 1, by have := needVal_pos .wfalse; omega⟩
      have hpn := parseNext_word f s c 'f' (['a', 'l', 's', 'e'] ++ rest) (by rw [hch]; exact hd)
        (by decide) (by decide) (by decide) (by decide) (by decide)
      have hwr := wordRead_false s c rest hstop (by simpa using hd)
      refine ⟨c + 5, ?_, ?_, ?_⟩
      · rw [hpn, hch, hwr]
        simp [denoteVal]
      · simp [renderVal]
      · simp [renderVal]
  | .wnum ip fr, hw => by
      intro fuel s c rest hfuel hdrop hstop
      obtain ⟨hne, hip, hfr'⟩ := hw
      have hfr : ∀ f', fr = some f' → ∀ x ∈ f', x.isDigit = true := by
        intro f' hf'
        subst hf'
        exact hfr'
      obtain ⟨d, ip', rfl⟩ : ∃ d ip', ip = d :: ip' := by
        cases ip with
        | nil => exact absurd rfl hne
        | cons d ip' => exact ⟨d, ip', rfl⟩
      have hd0 : d.isDigit = true := hip d (by simp)
      have hd : s.drop c = ((d :: ip') ++ renderFr fr) ++ rest := by
        simpa [renderVal] using hdrop
      have hd' : s.drop c = d :: ((ip' ++ renderFr fr) ++ rest) := by simpa using hd
      have hch : chop s c = c := chop_stop s c d (drop_head _ _ _ _ hd') (digit_not_ws d hd0)
      obtain ⟨f, rfl⟩ : ∃ f, fuel = f + 1 :=
        ⟨fuel - 1, by have := needVal_pos (.wnum (d :: ip') fr); omega⟩
      have hpn := parseNext_num f s c d ((ip' ++ renderFr fr) ++ rest) (by rw [hch]; exact hd')
        (digit_ne d hd0 _ (by decide)) (digit_ne d hd0 _ (by decide))
        (digit_ne d hd0 _ (by decide)) hd0
      have hnr := numberRead_run s c (d :: ip') fr rest hne hip hfr hstop hd
      refine ⟨c + ((d :: ip') ++ renderFr fr).length, ?_, ?_, ?_⟩
      · rw [hpn, hch, hnr]
        simp [denoteVal]
      · simp [renderVal]
      · simp [renderVal]
  | .wstr t, hw => by
      intro fuel s c rest hfuel hdrop hstop
      have hd : s.drop c = '"' :: (t ++ '"' :: rest) := by simpa [renderVal] using hdrop
      have hch : chop s c = c := chop_stop s c '"' (drop_head _ _ _ _ hd) (by decide)
      obtain ⟨f, rfl⟩ : ∃ f, fuel = f + 1 :=
        ⟨fuel - 1, by have := needVal_pos (.wstr t); omega⟩
      have hps : parseString s (chop s c) = (.ok t, c + t.length + 2) := by
        rw [hch]
        exact parseString_run s t rest hw c hd
      have hpn := parseNext_str f s c t (c + t.length + 2) (t ++ '"' :: rest)
        (by rw [hch]; exact hd) hps
      refine ⟨c + t.length + 2, ?_, ?_, ?_⟩
      · rw [hpn]
        simp [denoteVal]
      · simp [renderVal]
        omega
      · have h1 : c + (renderVal (.wstr t)).length = c + t.length + 2 := by
          simp [renderVal]
          omega
        rw [h1]
  | .warr ws items, hw => by
      intro fuel s c rest hfuel hdrop hstop
      obtain ⟨hws, hi⟩ := hw
      have hd : s.drop c = '[' :: ((ws ++ renderItems items) ++ rest) := by
        simpa [renderVal] using hdrop
      have hch : chop s c = c := chop_stop s c '[' (drop_head _ _ _ _ hd) (by decide)
      obtain ⟨f, rfl⟩ : ∃ f, fuel = f + 1 :=
        ⟨fuel - 1, by have := needVal_pos (.warr ws items); omega⟩
      have hfuel' : 1 + needItems items ≤ f := by
        simp only [needVal] at hfuel
        omega
      have harr := completeArrR ws items hws hi f s c rest hfuel' (by
        rw [show ('[' :: (ws ++ renderItems items)) ++ rest =
          '[' :: ((ws ++ renderItems items) ++ rest) from by simp]
        exact hd)
      have hpn := parseNext_arr f s c ((ws ++ renderItems items) ++ rest) (by rw [hch]; exact hd)
      refine ⟨chop s (c + ('[' :: (ws ++ renderItems items)).length), ?_, ?_, ?_⟩
      · rw [hpn, hch, harr]
        simp [denoteVal, renderVal]
      · have h1 : c + (renderVal (.warr ws items)).length =
            c + ('[' :: (ws ++ renderItems items)).length := by simp [renderVal]
        rw [h1]
        exact chop_ge s _
      · have h1 : c + (renderVal (.warr ws items)).length =
            c + ('[' :: (ws ++ renderItems items)).length := by simp [renderVal]
        rw [h1]
        exact chop_idem s _
  | .wobj ws mems, hw => by
      intro fuel s c rest hfuel hdrop hstop
      obtain ⟨hws, hm⟩ := hw
      have hd : s.drop c = '\x7b' :: ((ws ++ renderMems mems) ++ rest) := by
        simpa [renderVal] using hdrop
      have hch : chop s c = c := chop_stop s c '\x7b' (drop_head _ _ _ _ hd) (by decide)
      obtain ⟨f, rfl⟩ : ∃ f, fuel = f + 1 :=
        ⟨fuel - 1, by have := needVal_pos (.wobj ws mems); omega⟩
      have hfuel' : 1 + needMems mems ≤ f := by
        simp only [needVal] at hfuel
        omega
      have hobj := completeObjR ws mems hws hm f s c rest hfuel' (by
        rw [show ('\x7b' :: (ws ++ renderMems mems)) ++ rest =
          '\x7b' :: ((ws ++ renderMems mems) ++ rest) from by simp]
        exact hd)
      have hpn := parseNext_obj f s c ((ws ++ renderMems mems) ++ rest) (by rw [hch]; exact hd)
      refine ⟨c + ('\x7b' :: (ws ++ renderMems mems)).length, ?_, ?_, ?_⟩
      · rw [hpn, hch, hobj]
        simp [denoteVal, renderVal]
      · simp [renderVal]
      · have h1 : c + (renderVal (.wobj ws mems)).length =
            c + ('\x7b' :: (ws ++ renderMems mems)).length := by simp [renderVal]
        rw [h1]
termination_by mVal v
decreasing_by
  all_goals simp [mVal, mItems, mMems] <;> omega

theorem completeArrR (ws : List Char) (items : WItems)
    (hws : ∀ x ∈ ws, x ∈ wsChars) (hi : wfItems items) :
    ∀ fuel s c rest, 1 + needItems items ≤ fuel →
    s.drop c = ('[' :: (ws ++ renderItems items)) ++ rest →
    parseArray fuel s c =
      some (.ok (.arr (denoteItems items)),
        chop s (c + ('[' :: (ws ++ renderItems items)).length)) := by
  intro fuel s c rest hfuel hdrop
  obtain ⟨f, rfl⟩ : ∃ f, fuel = f + 1 := ⟨fuel - 1, by omega⟩
  have hd : s.drop c = '[' :: ((ws ++ renderItems items) ++ rest) := by simpa using hdrop
  rw [parseArray_step f s c _ hd]
  have hd1 : s.drop (c + 1) = ws ++ (renderItems items ++ rest) := by
    have := drop_tail _ _ _ _ hd
    simpa using this
  have hchop : chop s (c + 1) = c + 1 + ws.length :=
    chop_run s ws (renderItems items ++ rest) (ws_all_isWs ws hws)
      (renderItems_headNonWs items hi rest) (c + 1) hd1
  rw [hchop]
  have hd2 : s.drop (c + 1 + ws.length) = renderItems items ++ rest :=
    drop_append s (c + 1) ws _ hd1
  rw [completeItemsLoop items hi f s (c + 1 + ws.length) [] rest (by omega) hd2]
  have harith : c + 1 + ws.length + (renderItems items).length =
      c + ('[' :: (ws ++ renderItems items)).length := by
    simp only [List.length_cons, List.length_append]
    omega
  rw [harith]
  simp
termination_by mItems items + 1
decreasing_by
  omega

theorem completeItemsLoop (items : WItems) (hi : wfItems items) :
    ∀ fuel s c acc rest, needItems items ≤ fuel →
    s.drop c = renderItems items ++ rest →
    arrLoop fuel s c false acc =
      some (.ok (.arr (acc ++ denoteItems items)), chop s (c + (renderItems items).length)) :=
  match items, hi with
  | .empty, _ => by
      intro fuel s c acc rest hfuel hdrop
      obtain ⟨f, rfl⟩ : ∃ f, fuel = f + 1 :=
        ⟨fuel - 1, by simp [needItems] at hfuel; omega⟩
      have hd : s.drop c = ']' :: rest := by
        rw [show renderItems .empty = [']'] from by simp [renderItems]] at hdrop
        simpa using hdrop
      rw [arrLoop_close f s c acc rest hd]
      simp [denoteItems, renderItems]
  | .more v t, hi => by
      intro fuel s c acc rest hfuel hdrop
      obtain ⟨hv, ht⟩ := hi
      have hd : s.drop c = (renderVal v ++ renderTail t) ++ rest := by
        rw [show renderItems (.more v t) = renderVal v ++ renderTail t from by
          simp [renderItems]] at hdrop
        exact hdrop
      rw [completeTailA v t hv ht fuel s c false acc rest
        (by simpa [needItems] using hfuel) hd]
      simp [denoteItems, renderItems]
termination_by mItems items
decreasing_by
  simp [mItems] <;> omega

theorem completeTailA (v : WVal) (t : WTail) (hv : wfVal v) (ht : wfTail t) :
    ∀ fuel s c eN acc rest, 1 + max (needVal v) (needTailC t) ≤ fuel →
    s.drop c = (renderVal v ++ renderTail t) ++ rest →
    arrLoop fuel s c eN acc =
      some (.ok (.arr (acc ++ denoteVal v :: collectTail t)),
        chop s (c + (renderVal v ++ renderTail t).length)) :=
  match t, ht with
  | .last ws, ht => by
      intro fuel s c eN acc rest hfuel hdrop
      obtain ⟨f, rfl⟩ : ∃ f, fuel = f + 1 := ⟨fuel - 1, by omega⟩
      obtain ⟨ch, tl, hrv, hgh⟩ := renderVal_head v hv
      have hdropv : s.drop c = renderVal v ++ (renderTail (.last ws) ++ rest) := by
        simpa using hdrop
      have hd' : s.drop c = ch :: (tl ++ (renderTail (.last ws) ++ rest)) := by
        rw [hdropv, hrv]
        simp
      have hstopv : stopper v (renderTail (.last ws) ++ rest) :=
        stopper_of_sepHead v _ (sepHead_renderTail (.last ws) ht rest)
      obtain ⟨c1, hpn, hc1ge, hc1chop⟩ :=
        completeNext v hv f s c (renderTail (.last ws) ++ rest) (by omega) hdropv hstopv
      have hafter : s.drop (c + (renderVal v).length) = renderTail (.last ws) ++ rest :=
        drop_append s c _ _ hdropv
      have hws : ∀ x ∈ ws, x.isWhitespace = true := ws_all_isWs ws ht
      have hafter' : s.drop (c + (renderVal v).length) = ws ++ (']' :: rest) := by
        rw [hafter]
        simp [renderTail]
      have hchop2 : chop s (c + (renderVal v).length) = c + (renderVal v).length + ws.length :=
        chop_run s ws (']' :: rest) hws ((headNonWs_cons _ _).mpr (by decide))
          (c + (renderVal v).length) hafter'
      have hdropb : s.drop (c + (renderVal v).length + ws.length) = ']' :: rest :=
        drop_append s (c + (renderVal v).length) ws _ hafter'
      have hcons : consume s (chop s c1) =
          (.ok ']', c + (renderVal v).length + ws.length + 1) := by
        rw [hc1chop, hchop2]
        exact consume_at _ _ _ _ hdropb
      rw [arrLoop_step f s c eN acc ch _ hd' hgh.2.1 (denoteVal v) c1 hpn ']' _ hcons]
      rw [if_neg (by decide), if_pos rfl]
      have harith : c + (renderVal v).length + ws.length + 1 =
          c + (renderVal v ++ renderTail (.last ws)).length := by
        simp [renderTail]
        omega
      rw [harith]
      simp [collectTail]
  | .comma ws1 ws2 v' t', ht => by
      intro fuel s c eN acc rest hfuel hdrop
      obtain ⟨f, rfl⟩ : ∃ f, fuel = f + 1 := ⟨fuel - 1, by omega⟩
      obtain ⟨ch, tl, hrv, hgh⟩ := renderVal_head v hv
      have hdropv : s.drop c = renderVal v ++ (renderTail (.comma ws1 ws2 v' t') ++ rest) := by
        simpa using hdrop
      have hd' : s.drop c = ch :: (tl ++ (renderTail (.comma ws1 ws2 v' t') ++ rest)) := by
        rw [hdropv, hrv]
        simp
      have hstopv : stopper v (renderTail (.comma ws1 ws2 v' t') ++ rest) :=
        stopper_of_sepHead v _ (sepHead_renderTail (.comma ws1 ws2 v' t') ht rest)
      obtain ⟨c1, hpn, hc1ge, hc1chop⟩ :=
        completeNext v hv f s c (renderTail (.comma ws1 ws2 v' t') ++ rest)
          (by omega) hdropv hstopv
      have hafter : s.drop (c + (renderVal v).length) =
          renderTail (.comma ws1 ws2 v' t') ++ rest :=
        drop_append s c _ _ hdropv
      obtain ⟨h1, h2, hv', ht'⟩ := ht
      have hws1 : ∀ x ∈ ws1, x.isWhitespace = true := ws_all_isWs ws1 h1
      have hws2 : ∀ x ∈ ws2, x.isWhitespace = true := ws_all_isWs ws2 h2
      have hafter' : s.drop (c + (renderVal v).length) =
          ws1 ++ (',' :: (ws2 ++ (renderVal v' ++ (renderTail t' ++ rest)))) := by
        rw [hafter]
        simp [renderTail]
      have hchop2 : chop s (c + (renderVal v).length) =
          c + (renderVal v).length + ws1.length :=
        chop_run s ws1 _ hws1 ((headNonWs_cons _ _).mpr (by decide)) _ hafter'
      have hdropc : s.drop (c + (renderVal v).length + ws1.length) =
          ',' :: (ws2 ++ (renderVal v' ++ (renderTail t' ++ rest))) :=
        drop_append s (c + (renderVal v).length) ws1 _ hafter'
      have hcons : consume s (chop s c1) =
          (.ok ',', c + (renderVal v).length + ws1.length + 1) := by
        rw [hc1chop, hchop2]
        exact consume_at _ _ _ _ hdropc
      rw [arrLoop_step f s c eN acc ch _ hd' hgh.2.1 (denoteVal v) c1 hpn ',' _ hcons]
      rw [if_pos rfl]
      obtain ⟨ch2, tl2, hrv', hgh'⟩ := renderVal_head v' hv'
      have hdrop2 : s.drop (c + (renderVal v).length + ws1.length + 1) =
          ws2 ++ (renderVal v' ++ (renderTail t' ++ rest)) :=
        drop_tail _ _ _ _ hdropc
      have hchop3 : chop s (c + (renderVal v).length + ws1.length + 1) =
          c + (renderVal v).length + ws1.length + 1 + ws2.length := by
        refine chop_run s ws2 _ hws2 ?_ _ hdrop2
        rw [hrv', List.cons_append, headNonWs_cons]
        exact hgh'.1
      rw [hchop3]
      have hdrop3 : s.drop (c + (renderVal v).length + ws1.length + 1 + ws2.length) =
          (renderVal v' ++ renderTail t') ++ rest := by
        have := drop_append s (c + (renderVal v).length + ws1.length + 1) ws2 _ hdrop2
        simpa using this
      rw [completeTailA v' t' hv' ht' f s
        (c + (renderVal v).length + ws1.length + 1 + ws2.length) true (acc ++ [denoteVal v])
        rest (by simp only [needTailC] at hfuel; omega) hdrop3]
      have harith : c + (renderVal v).length + ws1.length + 1 + ws2.length +
          (renderVal v' ++ renderTail t').length =
          c + (renderVal v ++ renderTail (.comma ws1 ws2 v' t')).length := by
        simp [renderTail]
        omega
      rw [harith]
      simp [collectTail]
termination_by mVal v + mTail t + 1
decreasing_by
  all_goals simp [mTail] <;> omega

theorem completeObjR (ws : List Char) (ms : WMems)
    (hws : ∀ x ∈ ws, x ∈ wsChars) (hm : wfMems ms) :
    ∀ fuel s c rest, 1 + needMems ms ≤ fuel →
    s.drop c = ('\x7b' :: (ws ++ renderMems ms)) ++ rest →
    parseObject fuel s c =
      some (.ok (.obj (foldMems [] ms)), c + ('\x7b' :: (ws ++ renderMems ms)).length) := by
  intro fuel s c rest hfuel hdrop
  obtain ⟨f, rfl⟩ : ∃ f, fuel = f + 1 := ⟨fuel - 1, by omega⟩
  have hd : s.drop c = '\x7b' :: ((ws ++ renderMems ms) ++ rest) := by simpa using hdrop
  rw [parseObject_step f s c _ hd]
  have hd1 : s.drop (c + 1) = ws ++ (renderMems ms ++ rest) := by
    have := drop_tail _ _ _ _ hd
    simpa using this
  have hchop : chop s (c + 1) = c + 1 + ws.length :=
    chop_run s ws (renderMems ms ++ rest) (ws_all_isWs ws hws)
      (renderMems_headNonWs ms hm rest) (c + 1) hd1
  rw [hchop]
  have hd2 : s.drop (c + 1 + ws.length) = renderMems ms ++ rest :=
    drop_append s (c + 1) ws _ hd1
  rw [completeMemsLoop ms hm f s (c + 1 + ws.length) [] rest (by omega) hd2]
  have harith : c + 1 + ws.length + (renderMems ms).length =
      c + ('\x7b' :: (ws ++ renderMems ms)).length := by
    simp only [List.length_cons, List.length_append]
    omega
  rw [harith]
termination_by mMems ms + 1
decreasing_by
  omega

theorem completeMemsLoop (ms : WMems) (hm : wfMems ms) :
    ∀ fuel s c acc rest, needMems ms ≤ fuel →
    s.drop c = renderMems ms ++ rest →
    objLoop fuel s c false acc =
      some (.ok (.obj (foldMems acc ms)), c + (renderMems ms).length) :=
  match ms, hm with
  | .empty, _ => by
      intro fuel s c acc rest hfuel hdrop
      obtain ⟨f, rfl⟩ : ∃ f, fuel = f + 1 :=
        ⟨fuel - 1, by simp [needMems] at hfuel; omega⟩
      have hd : s.drop c = '\x7d' :: rest := by
        rw [show renderMems .empty = ['\x7d'] from by simp [renderMems]] at hdrop
        simpa using hdrop
      rw [objLoop_close f s c acc rest hd]
      simp [foldMems, renderMems]
  | .more k ws1 ws2 v t, hm => by
      intro fuel s c acc rest hfuel hdrop
      obtain ⟨hk, h1, h2, hv, ht⟩ := hm
      have hd : s.drop c = (renderMem k ws1 ws2 v ++ renderMTail t) ++ rest := by
        rw [show renderMems (.more k ws1 ws2 v t) = renderMem k ws1 ws2 v ++ renderMTail t
          from by simp [renderMems]] at hdrop
        exact hdrop
      rw [completeTailO k ws1 ws2 v t hk h1 h2 hv ht fuel s c false acc rest
        (by simpa [needMems] using hfuel) hd]
      have hlen : (renderMems (.more k ws1 ws2 v t)).length =
          (renderMem k ws1 ws2 v ++ renderMTail t).length := by simp [renderMems]
      rw [hlen]
      simp [foldMems]
termination_by mMems ms
decreasing_by
  simp [mMems] <;> omega

theorem completeTailO (k : List Char) (ws1 ws2 : List Char) (v : WVal) (t : WMTail)
    (hk : '"' ∉ k) (h1 : ∀ x ∈ ws1, x ∈ wsChars) (h2 : ∀ x ∈ ws2, x ∈ wsChars)
    (hv : wfVal v) (ht : wfMTail t) :
    ∀ fuel s c eN acc rest, 1 + max (needVal v) (needMTailC t) ≤ fuel →
    s.drop c = (renderMem k ws1 ws2 v ++ renderMTail t) ++ rest →
    objLoop fuel s c eN acc =
      some (.ok (.obj (foldMTail (insertKV acc k (denoteVal v)) t)),
        c + (renderMem k ws1 ws2 v ++ renderMTail t).length) :=
  match t, ht with
  | .last ws, ht => by
      intro fuel s c eN acc rest hfuel hdrop
      obtain ⟨f, rfl⟩ : ∃ f, fuel = f + 1 := ⟨fuel - 1, by omega⟩
      have hws1 : ∀ x ∈ ws1, x.isWhitespace = true := ws_all_isWs ws1 h1
      have hws2 : ∀ x ∈ ws2, x.isWhitespace = true := ws_all_isWs ws2 h2
      have hdK : s.drop c = '"' :: (k ++ '"' ::
          (ws1 ++ (':' :: (ws2 ++ (renderVal v ++ (renderMTail (.last ws) ++ rest)))))) := by
        rw [show renderMem k ws1 ws2 v = '"' :: (k ++ '"' :: (ws1 ++ ':' :: (ws2 ++ renderVal v)))
          from by simp [renderMem]] at hdrop
        simpa using hdrop
      have hps : parseString s c = (.ok k, c + k.length + 2) :=
        parseString_run s k _ hk c hdK
      have hdK' : s.drop c = ('"' :: (k ++ ['"'])) ++
          (ws1 ++ (':' :: (ws2 ++ (renderVal v ++ (renderMTail (.last ws) ++ rest))))) := by
        rw [hdK]
        simp
      have hdrop1 : s.drop (c + k.length + 2) =
          ws1 ++ (':' :: (ws2 ++ (renderVal v ++ (renderMTail (.last ws) ++ rest)))) := by
        have h := drop_append s c ('"' :: (k ++ ['"'])) _ hdK'
        have e : c + ('"' :: (k ++ ['"'])).length = c + k.length + 2 := by
          simp only [List.length_cons, List.length_append, List.length_nil]
          omega
        rw [e] at h
        exact h
      have hchop1 : chop s (c + k.length + 2) = c + k.length + 2 + ws1.length :=
        chop_run s ws1 _ hws1 ((headNonWs_cons _ _).mpr (by decide)) _ hdrop1
      have hdrop2 : s.drop (c + k.length + 2 + ws1.length) =
          ':' :: (ws2 ++ (renderVal v ++ (renderMTail (.last ws) ++ rest))) :=
        drop_append s (c + k.length + 2) ws1 _ hdrop1
      have hcc : consumeCheck s (chop s (c + k.length + 2)) ':' =
          (.ok (), c + k.length + 2 + ws1.length + 1) := by
        rw [hchop1]
        exact consumeCheck_at _ _ _ _ hdrop2
      obtain ⟨chv, tlv, hrv, hgh⟩ := renderVal_head v hv
      have hdrop3 : s.drop (c + k.length + 2 + ws1.length + 1) =
          ws2 ++ (renderVal v ++ (renderMTail (.last ws) ++ rest)) :=
        drop_tail _ _ _ _ hdrop2
      have hchop2 : chop s (c + k.length + 2 + ws1.length + 1) =
          c + k.length + 2 + ws1.length + 1 + ws2.length := by
        refine chop_run s ws2 _ hws2 ?_ _ hdrop3
        rw [hrv, List.cons_append, headNonWs_cons]
        exact hgh.1
      have hdrop4 : s.drop (c + k.length + 2 + ws1.length + 1 + ws2.length) =
          renderVal v ++ (renderMTail (.last ws) ++ rest) :=
        drop_append s (c + k.length + 2 + ws1.length + 1) ws2 _ hdrop3
      have hstopv : stopper v (renderMTail (.last ws) ++ rest) :=
        stopper_of_sepHead v _ (sepHead_renderMTail (.last ws) ht rest)
      obtain ⟨c3, hpn, hc3ge, hc3chop⟩ :=
        completeNext v hv f s (c + k.length + 2 + ws1.length + 1 + ws2.length)
          (renderMTail (.last ws) ++ rest) (by omega) hdrop4 hstopv
      have hpn' : parseNext f s (chop s (c + k.length + 2 + ws1.length + 1)) =
          some (.ok (denoteVal v), c3) := by
        rw [hchop2]
        exact hpn
      have hafter : s.drop (c + k.length + 2 + ws1.length + 1 + ws2.length +
          (renderVal v).length) = renderMTail (.last ws) ++ rest :=
        drop_append s _ _ _ hdrop4
      have hws : ∀ x ∈ ws, x.isWhitespace = true := ws_all_isWs ws ht
      have hafter' : s.drop (c + k.length + 2 + ws1.length + 1 + ws2.length +
          (renderVal v).length) = ws ++ ('\x7d' :: rest) := by
        rw [hafter]
        simp [renderMTail]
      have hchop3 : chop s (c + k.length + 2 + ws1.length + 1 + ws2.length +
          (renderVal v).length) = c + k.length + 2 + ws1.length + 1 + ws2.length +
          (renderVal v).length + ws.length :=
        chop_run s ws _ hws ((headNonWs_cons _ _).mpr (by decide)) _ hafter'
      have hdropb : s.drop (c + k.length + 2 + ws1.length + 1 + ws2.length +
          (renderVal v).length + ws.length) = '\x7d' :: rest :=
        drop_append s _ ws _ hafter'
      have hcons : consume s (chop s c3) =
          (.ok '\x7d', c + k.length + 2 + ws1.length + 1 + ws2.length +
            (renderVal v).length + ws.length + 1) := by
        rw [hc3chop, hchop3]
        exact consume_at _ _ _ _ hdropb
      rw [objLoop_step f s c eN acc '"' _ hdK (by decide) k (c + k.length + 2) hps
        (c + k.length + 2 + ws1.length + 1) hcc (denoteVal v) c3 hpn' '\x7d' _ hcons]
      rw [if_neg (by decide), if_pos rfl]
      have harith : c + k.length + 2 + ws1.length + 1 + ws2.length +
          (renderVal v).length + ws.length + 1 =
          c + (renderMem k ws1 ws2 v ++ renderMTail (.last ws)).length := by
        simp [renderMem, renderMTail]
        omega
      rw [harith]
      simp [foldMTail]
  | .comma ws1' ws2' k' ws3 ws4 v' t', ht => by
      intro fuel s c eN acc rest hfuel hdrop
      obtain ⟨f, rfl⟩ : ∃ f, fuel = f + 1 := ⟨fuel - 1, by omega⟩
      have hws1 : ∀ x ∈ ws1, x.isWhitespace = true := ws_all_isWs ws1 h1
      have hws2 : ∀ x ∈ ws2, x.isWhitespace = true := ws_all_isWs ws2 h2
      have hdK : s.drop c = '"' :: (k ++ '"' ::
          (ws1 ++ (':' :: (ws2 ++ (renderVal v ++
            (renderMTail (.comma ws1' ws2' k' ws3 ws4 v' t') ++ rest)))))) := by
        rw [show renderMem k ws1 ws2 v = '"' :: (k ++ '"' :: (ws1 ++ ':' :: (ws2 ++ renderVal v)))
          from by simp [renderMem]] at hdrop
        simpa using hdrop
      have hps : parseString s c = (.ok k, c + k.length + 2) :=
        parseString_run s k _ hk c hdK
      have hdK' : s.drop c = ('"' :: (k ++ ['"'])) ++
          (ws1 ++ (':' :: (ws2 ++ (renderVal v ++
            (renderMTail (.comma ws1' ws2' k' ws3 ws4 v' t') ++ rest))))) := by
        rw [hdK]
        simp
      have hdrop1 : s.drop (c + k.length + 2) =
          ws1 ++ (':' :: (ws2 ++ (renderVal v ++
            (renderMTail (.comma ws1' ws2' k' ws3 ws4 v' t') ++ rest)))) := by
        have h := drop_append s c ('"' :: (k ++ ['"'])) _ hdK'
        have e : c + ('"' :: (k ++ ['"'])).length = c + k.length + 2 := by
          simp only [List.length_cons, List.length_append, List.length_nil]
          omega
        rw [e] at h
        exact h
      have hchop1 : chop s (c + k.length + 2) = c + k.length + 2 + ws1.length :=
        chop_run s ws1 _ hws1 ((headNonWs_cons _ _).mpr (by decide)) _ hdrop1
      have hdrop2 : s.drop (c + k.length + 2 + ws1.length) =
          ':' :: (ws2 ++ (renderVal v ++
            (renderMTail (.comma ws1' ws2' k' ws3 ws4 v' t') ++ rest))) :=
        drop_append s (c + k.length + 2) ws1 _ hdrop1
      have hcc : consumeCheck s (chop s (c + k.length + 2)) ':' =
          (.ok (), c + k.length + 2 + ws1.length + 1) := by
        rw [hchop1]
        exact consumeCheck_at _ _ _ _ hdrop2
      obtain ⟨chv, tlv, hrv, hgh⟩ := renderVal_head v hv
      have hdrop3 : s.drop (c + k.length + 2 + ws1.length + 1) =
          ws2 ++ (renderVal v ++ (renderMTail (.comma ws1' ws2' k' ws3 ws4 v' t') ++ rest)) :=
        drop_tail _ _ _ _ hdrop2
      have hchop2 : chop s (c + k.length + 2 + ws1.length + 1) =
          c + k.length + 2 + ws1.length + 1 + ws2.length := by
        refine chop_run s ws2 _ hws2 ?_ _ hdrop3
        rw [hrv, List.cons_append, headNonWs_cons]
        exact hgh.1
      have hdrop4 : s.drop (c + k.length + 2 + ws1.length + 1 + ws2.length) =
          renderVal v ++ (renderMTail (.comma ws1' ws2' k' ws3 ws4 v' t') ++ rest) :=
        drop_append s (c + k.length + 2 + ws1.length + 1) ws2 _ hdrop3
      have hstopv : stopper v (renderMTail (.comma ws1' ws2' k' ws3 ws4 v' t') ++ rest) :=
        stopper_of_sepHead v _ (sepHead_renderMTail (.comma ws1' ws2' k' ws3 ws4 v' t') ht rest)
      obtain ⟨c3, hpn, hc3ge, hc3chop⟩ :=
        completeNext v hv f s (c + k.length + 2 + ws1.length + 1 + ws2.length)
          (renderMTail (.comma ws1' ws2' k' ws3 ws4 v' t') ++ rest) (by omega) hdrop4 hstopv
      have hpn' : parseNext f s (chop s (c + k.length + 2 + ws1.length + 1)) =
          some (.ok (denoteVal v), c3) := by
        rw [hchop2]
        exact hpn
      have hafter : s.drop (c + k.length + 2 + ws1.length + 1 + ws2.length +
          (renderVal v).length) = renderMTail (.comma ws1' ws2' k' ws3 ws4 v' t') ++ rest :=
        drop_append s _ _ _ hdrop4
      obtain ⟨hw1', hw2', hk', hw3, hw4, hv', ht'⟩ := ht
      have hws1' : ∀ x ∈ ws1', x.isWhitespace = true := ws_all_isWs ws1' hw1'
      have hws2' : ∀ x ∈ ws2', x.isWhitespace = true := ws_all_isWs ws2' hw2'
      have hafter' : s.drop (c + k.length + 2 + ws1.length + 1 + ws2.length +
          (renderVal v).length) =
          ws1' ++ (',' :: (ws2' ++ ((renderMem k' ws3 ws4 v' ++ renderMTail t') ++ rest))) := by
        rw [hafter]
        simp [renderMTail]
      have hchop3 : chop s (c + k.length + 2 + ws1.length + 1 + ws2.length +
          (renderVal v).length) = c + k.length + 2 + ws1.length + 1 + ws2.length +
          (renderVal v).length + ws1'.length :=
        chop_run s ws1' _ hws1' ((headNonWs_cons _ _).mpr (by decide)) _ hafter'
      have hdropc : s.drop (c + k.length + 2 + ws1.length + 1 + ws2.length +
          (renderVal v).length + ws1'.length) =
          ',' :: (ws2' ++ ((renderMem k' ws3 ws4 v' ++ renderMTail t') ++ rest)) :=
        drop_append s _ ws1' _ hafter'
      have hcons : consume s (chop s c3) =
          (.ok ',', c + k.length + 2 + ws1.length + 1 + ws2.length +
            (renderVal v).length + ws1'.length + 1) := by
        rw [hc3chop, hchop3]
        exact consume_at _ _ _ _ hdropc
      rw [objLoop_step f s c eN acc '"' _ hdK (by decide) k (c + k.length + 2) hps
        (c + k.length + 2 + ws1.length + 1) hcc (denoteVal v) c3 hpn' ',' _ hcons]
      rw [if_pos rfl]
      have hdrop5 : s.drop (c + k.length + 2 + ws1.length + 1 + ws2.length +
          (renderVal v).length + ws1'.length + 1) =
          ws2' ++ ((renderMem k' ws3 ws4 v' ++ renderMTail t') ++ rest) :=
        drop_tail _ _ _ _ hdropc
      have hchop4 : chop s (c + k.length + 2 + ws1.length + 1 + ws2.length +
          (renderVal v).length + ws1'.length + 1) =
          c + k.length + 2 + ws1.length + 1 + ws2.length +
          (renderVal v).length + ws1'.length + 1 + ws2'.length := by
        refine chop_run s ws2' _ hws2' ?_ _ hdrop5
        rw [show renderMem k' ws3 ws4 v' =
          '"' :: (k' ++ '"' :: (ws3 ++ ':' :: (ws4 ++ renderVal v')))
          from by simp [renderMem], List.cons_append, List.cons_append, headNonWs_cons]
        decide
      rw [hchop4]
      have hdrop6 : s.drop (c + k.length + 2 + ws1.length + 1 + ws2.length +
          (renderVal v).length + ws1'.length + 1 + ws2'.length) =
          (renderMem k' ws3 ws4 v' ++ renderMTail t') ++ rest :=
        drop_append s _ ws2' _ hdrop5
      rw [completeTailO k' ws3 ws4 v' t' hk' hw3 hw4 hv' ht' f s
        (c + k.length + 2 + ws1.length + 1 + ws2.length +
          (renderVal v).length + ws1'.length + 1 + ws2'.length) true
        (insertKV acc k (denoteVal v)) rest
        (by simp only [needMTailC] at hfuel; omega) hdrop6]
      have harith : c + k.length + 2 + ws1.length + 1 + ws2.length +
          (renderVal v).length + ws1'.length + 1 + ws2'.length +
          (renderMem k' ws3 ws4 v' ++ renderMTail t').length =
          c + (renderMem k ws1 ws2 v ++
            renderMTail (.comma ws1' ws2' k' ws3 ws4 v' t')).length := by
        simp [renderMem, renderMTail]
        omega
      rw [harith]
      simp [foldMTail]
termination_by mVal v + mMTail t + 1
decreasing_by
  all_goals simp [mMTail] <;> omega

end

/-! Fuel bounds: the fuel a well-formed rendered document needs is at most
three times its text length, so the budget `parseFuel` always suffices. -/

theorem renderVal_pos (v : WVal) (hw : wfVal v) : 1 ≤ (renderVal v).length := by
  obtain ⟨ch, tl, hr, -⟩ := renderVal_head v hw
  rw [hr]
  simp

theorem renderTail_pos (t : WTail) : 1 ≤ (renderTail t).length := by
  cases t <;> simp [renderTail] <;> omega

theorem renderMTail_pos (t : WMTail) : 1 ≤ (renderMTail t).length := by
  cases t <;> simp [renderMTail] <;> omega

mutual

theorem needVal_le (v : WVal) (hw : wfVal v) : needVal v ≤ 3 * (renderVal v).length :=
  match v, hw with
  | .wnull, _ => by simp [needVal, renderVal]
  | .wtrue, _ => by simp [needVal, renderVal]
  | .wfalse, _ => by simp [needVal, renderVal]
  | .wnum ip fr, hw => by
      have h := renderVal_pos (.wnum ip fr) hw
      simp only [needVal]
      omega
  | .wstr t, _ => by simp [needVal, renderVal]; omega
  | .warr ws items, hw => by
      have h := needItems_le items hw.2
      simp only [needVal, renderVal, List.length_cons, List.length_append]
      omega
  | .wobj ws mems, hw => by
      have h := needMems_le mems hw.2
      simp only [needVal, renderVal, List.length_cons, List.length_append]
      omega
termination_by mVal v
decreasing_by
  all_goals simp [mVal] <;> omega

theorem needItems_le (items : WItems) (hi : wfItems items) :
    needItems items ≤ 3 * (renderItems items).length :=
  match items, hi with
  | .empty, _ => by simp [needItems, renderItems]
  | .more v t, hi => by
      have h1 := needVal_le v hi.1
      have h2 := needTailC_le t hi.2
      have h3 := renderVal_pos v hi.1
      have h4 := renderTail_pos t
      simp only [needItems, renderItems, List.length_append]
      omega
termination_by mItems items
decreasing_by
  all_goals simp [mItems] <;> omega

theorem needTailC_le (t : WTail) (ht : wfTail t) :
    needTailC t ≤ 3 * (renderTail t).length :=
  match t, ht with
  | .last ws, _ => by simp [needTailC]
  | .comma ws1 ws2 v t', ht => by
      have h1 := needVal_le v ht.2.2.1
      have h2 := needTailC_le t' ht.2.2.2
      have h3 := renderVal_pos v ht.2.2.1
      simp only [needTailC, renderTail, List.length_append, List.length_cons]
      omega
termination_by mTail t
decreasing_by
  all_goals simp [mTail] <;> omega

theorem needMems_le (ms : WMems) (hm : wfMems ms) :
    needMems ms ≤ 3 * (renderMems ms).length :=
  match ms, hm with
  | .empty, _ => by simp [needMems, renderMems]
  | .more k ws1 ws2 v t, hm => by
      have h1 := needVal_le v hm.2.2.2.1
      have h2 := needMTailC_le t hm.2.2.2.2
      have h3 := renderVal_pos v hm.2.2.2.1
      have h4 := renderMTail_pos t
      simp only [needMems, renderMems, renderMem, List.length_append, List.length_cons]
      omega
termination_by mMems ms
decreasing_by
  all_goals simp [mMems] <;> omega

theorem needMTailC_le (t : WMTail) (ht : wfMTail t) :
    needMTailC t ≤ 3 * (renderMTail t).length :=
  match t, ht with
  | .last ws, _ => by simp [needMTailC]
  | .comma ws1 ws2 k ws3 ws4 v t', ht => by
      have h1 := needVal_le v ht.2.2.2.2.2.1
      have h2 := needMTailC_le t' ht.2.2.2.2.2.2
      have h3 := renderVal_pos v ht.2.2.2.2.2.1
      simp only [needMTailC, renderMTail, renderMem, List.length_append, List.length_cons]
      omega
termination_by mMTail t
decreasing_by
  all_goals simp [mMTail] <;> omega

end

/-- A well-formed document: optional leading whitespace, then a root
object with whitespace after the brace and a member list. -/
structure WDoc where
  lead : List Char
  ws : List Char
  mems : WMems

/-- The text of a document. -/
def renderDoc (d : WDoc) : List Char :=
  d.lead ++ '\x7b' :: (d.ws ++ renderMems d.mems)

/-- Document well-formedness. -/
def wfDoc (d : WDoc) : Prop :=
  (∀ x ∈ d.lead, x ∈ wsChars) ∧ (∀ x ∈ d.ws, x ∈ wsChars) ∧ wfMems d.mems

/-- The value tree a document denotes. -/
def denoteDoc (d : WDoc) : JsonValue := .obj (foldMems [] d.mems)

/-- The central completeness lemma: parsing the text of a well-formed
document followed by arbitrary characters succeeds with the document's
value tree, never looking past the root object's closing brace. -/
theorem parseRender (d : WDoc) (hd : wfDoc d) (rest : List Char) :
    parse (renderDoc d ++ rest) = some (.ok (denoteDoc d)) := by
  obtain ⟨lead, ws, ms⟩ := d
  obtain ⟨hlead, hws, hm⟩ := hd
  set s : List Char := renderDoc ⟨lead, ws, ms⟩ ++ rest with hs
  have hdrop0 : s.drop 0 = lead ++ (('\x7b' :: (ws ++ renderMems ms)) ++ rest) := by
    rw [List.drop_zero, hs]
    simp [renderDoc]
  have hchop0 : chop s 0 = lead.length := by
    have := chop_run s lead (('\x7b' :: (ws ++ renderMems ms)) ++ rest)
      (ws_all_isWs lead hlead) ((headNonWs_cons _ _).mpr (by decide)) 0 hdrop0
    simpa using this
  have hdropl : s.drop lead.length = ('\x7b' :: (ws ++ renderMems ms)) ++ rest := by
    have := drop_append s 0 lead _ hdrop0
    simpa using this
  have hlen : (renderMems ms).length ≤ s.length := by
    rw [hs]
    simp [renderDoc]
    omega
  have hfuel : 1 + needMems ms ≤ parseFuel s := by
    have h1 := needMems_le ms hm
    simp only [parseFuel]
    omega
  have hobj := completeObjR ws ms hws hm (parseFuel s) s lead.length rest hfuel hdropl
  show (parseObject (parseFuel s) s (chop s 0)).map (fun r => r.1) =
    some (.ok (denoteDoc ⟨lead, ws, ms⟩))
  rw [hchop0, hobj]
  simp [denoteDoc]

/-! Erasing the whitespace of a document: two documents with the same
erasure differ only in the whitespace between tokens. -/

mutual

def stripVal : WVal → WVal
  | .wnull => .wnull
  | .wtrue => .wtrue
  | .wfalse => .wfalse
  | .wnum ip fr => .wnum ip fr
  | .wstr t => .wstr t
  | .warr _ items => .warr [] (stripItems items)
  | .wobj _ mems => .wobj [] (stripMems mems)

def stripItems : WItems → WItems
  | .empty => .empty
  | .more v t => .more (stripVal v) (stripTail t)

def stripTail : WTail → WTail
  | .last _ => .last []
  | .comma _ _ v t => .comma [] [] (stripVal v) (stripTail t)

def stripMems : WMems → WMems
  | .empty => .empty
  | .more k _ _ v t => .more k [] [] (stripVal v) (stripMTail t)

def stripMTail : WMTail → WMTail
  | .last _ => .last []
  | .comma _ _ k _ _ v t => .comma [] [] k [] [] (stripVal v) (stripMTail t)

end

mutual

theorem denoteVal_strip (v : WVal) : denoteVal (stripVal v) = denoteVal v :=
  match v with
  | .wnull => by simp [stripVal]
  | .wtrue => by simp [stripVal]
  | .wfalse => by simp [stripVal]
  | .wnum ip fr => by simp [stripVal]
  | .wstr t => by simp [stripVal]
  | .warr ws items => by
      rw [show stripVal (.warr ws items) = .warr [] (stripItems items) from by simp [stripVal]]
      simp only [denoteVal]
      rw [denoteItems_strip items]
  | .wobj ws mems => by
      rw [show stripVal (.wobj ws mems) = .wobj [] (stripMems mems) from by simp [stripVal]]
      simp only [denoteVal]
      rw [foldMems_strip [] mems]
termination_by mVal v
decreasing_by
  all_goals simp [mVal] <;> omega

theorem denoteItems_strip (items : WItems) : denoteItems (stripItems items) = denoteItems items :=
  match items with
  | .empty => by simp [stripItems]
  | .more v t => by
      rw [show stripItems (.more v t) = .more (stripVal v) (stripTail t) from by
        simp [stripItems]]
      simp only [denoteItems]
      rw [denoteVal_strip v, collectTail_strip t]
termination_by mItems items
decreasing_by
  all_goals simp [mItems] <;> omega

theorem collectTail_strip (t : WTail) : collectTail (stripTail t) = collectTail t :=
  match t with
  | .last ws => by simp [stripTail, collectTail]
  | .comma ws1 ws2 v t' => by
      rw [show stripTail (.comma ws1 ws2 v t') = .comma [] [] (stripVal v) (stripTail t') from by
        simp [stripTail]]
      simp only [collectTail]
      rw [denoteVal_strip v, collectTail_strip t']
termination_by mTail t
decreasing_by
  all_goals simp [mTail] <;> omega

theorem foldMems_strip (acc : List (List Char × JsonValue)) (ms : WMems) :
    foldMems acc (stripMems ms) = foldMems acc ms :=
  match ms with
  | .empty => by simp [stripMems]
  | .more k ws1 ws2 v t => by
      rw [show stripMems (.more k ws1 ws2 v t) = .more k [] [] (stripVal v) (stripMTail t)
        from by simp [stripMems]]
      simp only [foldMems]
      rw [denoteVal_strip v, foldMTail_strip (insertKV acc k (denoteVal v)) t]
termination_by mMems ms
decreasing_by
  all_goals simp [mMems] <;> omega

theorem foldMTail_strip (acc : List (List Char × JsonValue)) (t : WMTail) :
    foldMTail acc (stripMTail t) = foldMTail acc t :=
  match t with
  | .last ws => by simp [stripMTail, foldMTail]
  | .comma ws1 ws2 k ws3 ws4 v t' => by
      rw [show stripMTail (.comma ws1 ws2 k ws3 ws4 v t') =
        .comma [] [] k [] [] (stripVal v) (stripMTail t') from by simp [stripMTail]]
      simp only [foldMTail]
      rw [denoteVal_strip v, foldMTail_strip (insertKV acc k (denoteVal v)) t']
termination_by mMTail t
decreasing_by
  all_goals simp [mMTail] <;> omega

end

/-- Whitespace erasure of a document. -/
def stripDoc (d : WDoc) : WDoc := ⟨[], [], stripMems d.mems⟩

theorem denoteDoc_strip (d : WDoc) : denoteDoc (stripDoc d) = denoteDoc d := by
  simp [denoteDoc, stripDoc, foldMems_strip]

/-! The cursor invariant: every operation moves the cursor forward and
keeps it within the buffer. -/

/-- The relation between a cursor before and after an operation: it never
decreases, and it stays within bounds if it started within bounds. -/
def cursorOK (s : List Char) (c c' : Nat) : Prop :=
  c ≤ c' ∧ (c ≤ s.length → c' ≤ s.length)

theorem cursorOK_refl (s : List Char) (c : Nat) : cursorOK s c c :=
  ⟨Nat.le_refl c, fun h => h⟩

theorem cursorOK_trans (s : List Char) (a b c : Nat) (h1 : cursorOK s a b)
    (h2 : cursorOK s b c) : cursorOK s a c :=
  ⟨Nat.le_trans h1.1 h2.1, fun h => h2.2 (h1.2 h)⟩

theorem cursorOK_succ (s : List Char) (c : Nat) (hlt : c < s.length) :
    cursorOK s c (c + 1) :=
  ⟨Nat.le_succ c, fun _ => hlt⟩

theorem cursorOK_chop (s : List Char) (c : Nat) : cursorOK s c (chop s c) :=
  ⟨chop_ge s c, fun h => chop_le s c h⟩

theorem read_ok_lt (s : List Char) (c : Nat) (ch : Char) (h : read s c = .ok ch) :
    c < s.length := by
  unfold read at h
  split at h
  · rename_i heq
    by_contra hc
    rw [List.getElem?_eq_none (by omega)] at heq
    cases heq
  · cases h

theorem consume_cursorOK (s : List Char) (c : Nat) (res : Except JErr Char) (c' : Nat)
    (h : consume s c = (res, c')) : cursorOK s c c' := by
  unfold consume at h
  split at h
  · rename_i ch hread
    cases h
    exact cursorOK_succ s c (read_ok_lt s c ch hread)
  · cases h
    exact cursorOK_refl s c

theorem consumeCheck_cursorOK (s : List Char) (c : Nat) (e : Char)
    (res : Except JErr Unit) (c' : Nat) (h : consumeCheck s c e = (res, c')) :
    cursorOK s c c' := by
  unfold consumeCheck at h
  split at h
  · rename_i got c2 hcons
    split at h <;> (cases h; exact consume_cursorOK s c _ _ hcons)
  · rename_i e2 c2 hcons
    cases h
    exact consume_cursorOK s c _ _ hcons

theorem stringLoop_cursorOK (s : List Char) : ∀ c text res c',
    stringLoop s c text = (res, c') → cursorOK s c c' := by
  intro c text res c' h
  rw [stringLoop] at h
  split at h
  · rename_i hlt
    split at h
    · cases h
      exact cursorOK_succ s c hlt
    · exact cursorOK_trans s c (c + 1) c' (cursorOK_succ s c hlt)
        (stringLoop_cursorOK s (c + 1) _ res c' h)
  · cases h
    exact cursorOK_refl s c
termination_by c => s.length - c

theorem parseString_cursorOK (s : List Char) (c : Nat) (res : Except JErr (List Char))
    (c' : Nat) (h : parseString s c = (res, c')) : cursorOK s c c' := by
  unfold parseString at h
  split at h
  · rename_i u c2 hcc
    exact cursorOK_trans s c c2 c' (consumeCheck_cursorOK s c _ _ _ hcc)
      (stringLoop_cursorOK s c2 [] res c' h)
  · rename_i e c2 hcc
    cases h
    exact consumeCheck_cursorOK s c _ _ _ hcc

theorem numLoop_cursorOK (s : List Char) : ∀ c fp text res c',
    numLoop s c fp text = (res, c') → cursorOK s c c' := by
  intro c fp text res c' h
  rw [numLoop] at h
  split at h
  · rename_i hlt
    split at h
    · split at h
      · cases h
        exact cursorOK_refl s c
      · exact cursorOK_trans s c (c + 1) c' (cursorOK_succ s c hlt)
          (numLoop_cursorOK s (c + 1) true _ res c' h)
    · split at h
      · exact cursorOK_trans s c (c + 1) c' (cursorOK_succ s c hlt)
          (numLoop_cursorOK s (c + 1) fp _ res c' h)
      · cases h
        exact cursorOK_refl s c
  · cases h
    exact cursorOK_refl s c
termination_by c => s.length - c

theorem numberRead_cursorOK (s : List Char) (c : Nat) (res : Except JErr JsonValue)
    (c' : Nat) (h : numberRead s c = (res, c')) : cursorOK s c c' := by
  unfold numberRead at h
  split at h
  · rename_i text c2 hloop
    split at h <;> (cases h; exact numLoop_cursorOK s c false [] _ _ hloop)
  · rename_i e c2 hloop
    cases h
    exact numLoop_cursorOK s c false [] _ _ hloop

theorem wordLoop_cursorOK (s : List Char) : ∀ c text,
    cursorOK s c (wordLoop s c text).2 := by
  intro c text
  rw [wordLoop]
  split
  · rename_i hlt
    split
    · exact cursorOK_trans s c (c + 1) _ (cursorOK_succ s c hlt)
        (wordLoop_cursorOK s (c + 1) _)
    · exact cursorOK_refl s c
  · exact cursorOK_refl s c
termination_by c => s.length - c

theorem wordRead_cursorOK (s : List Char) (c : Nat) (res : Except JErr JsonValue)
    (c' : Nat) (h : wordRead s c = (res, c')) : cursorOK s c c' := by
  unfold wordRead at h
  have hw := wordLoop_cursorOK s c []
  split at h
  rename_i text c2 hloop
  rw [hloop] at hw
  split at h
  · cases h
    exact hw
  · split at h
    · cases h
      exact hw
    · split at h
      · cases h
        exact hw
      · cases h
        exact hw

theorem parsersCursorOK : ∀ fuel,
    (∀ s c r c', parseNext fuel s c = some (r, c') → cursorOK s c c') ∧
    (∀ s c r c', parseArray fuel s c = some (r, c') → cursorOK s c c') ∧
    (∀ s c eN acc r c', arrLoop fuel s c eN acc = some (r, c') → cursorOK s c c') ∧
    (∀ s c r c', parseObject fuel s c = some (r, c') → cursorOK s c c') ∧
    (∀ s c eN acc r c', objLoop fuel s c eN acc = some (r, c') → cursorOK s c c') := by
  intro fuel
  induction fuel with
  | zero =>
      refine ⟨?_, ?_, ?_, ?_, ?_⟩
      · intro s c r c' h
        simp [parseNext] at h
      · intro s c r c' h
        simp [parseArray] at h
      · intro s c eN acc r c' h
        simp [arrLoop] at h
      · intro s c r c' h
        simp [parseObject] at h
      · intro s c eN acc r c' h
        simp [objLoop] at h
  | succ f ih =>
      obtain ⟨ihN, ihA, ihAL, ihO, ihOL⟩ := ih
      refine ⟨?_, ?_, ?_, ?_, ?_⟩
      · -- parseNext
        intro s c r c' h
        simp only [parseNext] at h
        split at h
        · cases h
          exact cursorOK_chop s c
        · split at h
          · exact cursorOK_trans _ _ _ _ (cursorOK_chop s c) (ihO _ _ _ _ h)
          · split at h
            · split at h
              · rename_i text c2 hps
                cases h
                exact cursorOK_trans _ _ _ _ (cursorOK_chop s c)
                  (parseString_cursorOK s (chop s c) _ _ hps)
              · rename_i e c2 hps
                cases h
                exact cursorOK_trans _ _ _ _ (cursorOK_chop s c)
                  (parseString_cursorOK s (chop s c) _ _ hps)
            · split at h
              · exact cursorOK_trans _ _ _ _ (cursorOK_chop s c) (ihA _ _ _ _ h)
              · split at h
                · injection h with h2
                  exact cursorOK_trans _ _ _ _ (cursorOK_chop s c)
                    (numberRead_cursorOK s (chop s c) r c' h2)
                · split at h
                  · injection h with h2
                    exact cursorOK_trans _ _ _ _ (cursorOK_chop s c)
                      (wordRead_cursorOK s (chop s c) r c' h2)
                  · cases h
                    exact cursorOK_chop s c
      · -- parseArray
        intro s c r c' h
        simp only [parseArray] at h
        split at h
        · cases h
          rename_i e c2 hcc
          exact consumeCheck_cursorOK s c '[' _ _ hcc
        · rename_i u c2 hcc
          exact cursorOK_trans _ _ _ _ (consumeCheck_cursorOK s c '[' _ _ hcc)
            (cursorOK_trans _ _ _ _ (cursorOK_chop s c2) (ihAL _ _ _ _ _ _ h))
      · -- arrLoop
        intro s c eN acc r c' h
        simp only [arrLoop] at h
        split at h
        · rename_i hlt
          split at h
          · cases h
            exact cursorOK_refl s c
          · split at h
            · split at h
              · cases h
                exact cursorOK_refl s c
              · cases h
                exact cursorOK_trans _ _ _ _ (cursorOK_succ s c hlt)
                  (cursorOK_chop s (c + 1))
            · split at h
              · cases h
              · rename_i e c1 hpn
                cases h
                exact ihN _ _ _ _ hpn
              · rename_i v c1 hpn
                split at h
                · rename_i e c3 hcons
                  cases h
                  exact cursorOK_trans _ _ _ _ (ihN _ _ _ _ hpn)
                    (cursorOK_trans _ _ _ _ (cursorOK_chop s c1)
                      (consume_cursorOK s (chop s c1) _ _ hcons))
                · rename_i next c3 hcons
                  have hc3 : cursorOK s c c3 :=
                    cursorOK_trans _ _ _ _ (ihN _ _ _ _ hpn)
                      (cursorOK_trans _ _ _ _ (cursorOK_chop s c1)
                        (consume_cursorOK s (chop s c1) _ _ hcons))
                  split at h
                  · exact cursorOK_trans _ _ _ _ hc3
                      (cursorOK_trans _ _ _ _ (cursorOK_chop s c3) (ihAL _ _ _ _ _ _ h))
                  · split at h
                    · cases h
                      exact cursorOK_trans _ _ _ _ hc3 (cursorOK_chop s c3)
                    · cases h
                      exact hc3
        · cases h
          exact cursorOK_refl s c
      · -- parseObject
        intro s c r c' h
        simp only [parseObject] at h
        split at h
        · cases h
          rename_i e c2 hcc
          exact consumeCheck_cursorOK s c '\x7b' _ _ hcc
        · rename_i u c2 hcc
          exact cursorOK_trans _ _ _ _ (consumeCheck_cursorOK s c '\x7b' _ _ hcc)
            (cursorOK_trans _ _ _ _ (cursorOK_chop s c2) (ihOL _ _ _ _ _ _ h))
      · -- objLoop
        intro s c eN acc r c' h
        simp only [objLoop] at h
        split at h
        · rename_i hlt
          split at h
          · cases h
            exact cursorOK_refl s c
          · split at h
            · split at h
              · cases h
                exact cursorOK_refl s c
              · cases h
                exact cursorOK_succ s c hlt
            · split at h
              · rename_i e c1 hps
                cases h
                exact parseString_cursorOK s c _ _ hps
              · rename_i key c1 hps
                have hc1 : cursorOK s c c1 := parseString_cursorOK s c _ _ hps
                split at h
                · rename_i e c2 hcc
                  cases h
                  exact cursorOK_trans _ _ _ _ hc1
                    (cursorOK_trans _ _ _ _ (cursorOK_chop s c1)
                      (consumeCheck_cursorOK s (chop s c1) ':' _ _ hcc))
                · rename_i u c2 hcc
                  have hc2 : cursorOK s c c2 :=
                    cursorOK_trans _ _ _ _ hc1
                      (cursorOK_trans _ _ _ _ (cursorOK_chop s c1)
                        (consumeCheck_cursorOK s (chop s c1) ':' _ _ hcc))
                  split at h
                  · cases h
                  · rename_i e c3 hpn
                    cases h
                    exact cursorOK_trans _ _ _ _ hc2
                      (cursorOK_trans _ _ _ _ (cursorOK_chop s c2) (ihN _ _ _ _ hpn))
                  · rename_i v c3 hpn
                    have hc3 : cursorOK s c c3 :=
                      cursorOK_trans _ _ _ _ hc2
                        (cursorOK_trans _ _ _ _ (cursorOK_chop s c2) (ihN _ _ _ _ hpn))
                    split at h
                    · rename_i e c5 hcons
                      cases h
                      exact cursorOK_trans _ _ _ _ hc3
                        (cursorOK_trans _ _ _ _ (cursorOK_chop s c3)
                          (consume_cursorOK s (chop s c3) _ _ hcons))
                    · rename_i next c5 hcons
                      have hc5 : cursorOK s c c5 :=
                        cursorOK_trans _ _ _ _ hc3
                          (cursorOK_trans _ _ _ _ (cursorOK_chop s c3)
                            (consume_cursorOK s (chop s c3) _ _ hcons))
                      split at h
                      · exact cursorOK_trans _ _ _ _ hc5
                          (cursorOK_trans _ _ _ _ (cursorOK_chop s c5) (ihOL _ _ _ _ _ _ h))
                      · split at h
                        · cases h
                          exact hc5
                        · cases h
                          exact hc5
        · cases h
          exact cursorOK_refl s c


/-! Error-path step lemmas, used to evaluate the parser on the concrete
malformed documents of the claims. -/

theorem parse_eq (s : List Char) :
    parse s = (parseObject (parseFuel s) s (chop s 0)).map (fun r => r.1) := rfl

theorem parseObject_errStep (f : Nat) (s : List Char) (c : Nat) (e : JErr) (c' : Nat)
    (h : consumeCheck s c '\x7b' = (.error e, c')) :
    parseObject (f + 1) s c = some (.error e, c') := by
  simp only [parseObject]
  rw [h]

theorem parseNext_strErr (f : Nat) (s : List Char) (c : Nat) (e : JErr) (c' : Nat)
    (tl : List Char) (h : s.drop (chop s c) = '"' :: tl)
    (hps : parseString s (chop s c) = (.error e, c')) :
    parseNext (f + 1) s c = some (.error e, c') := by
  simp only [parseNext]
  rw [read_at s (chop s c) '"' tl h]
  simp [hps]

theorem numberRead_errOf (s : List Char) (c : Nat) (e : JErr) (c' : Nat)
    (h : numLoop s c false [] = (.error e, c')) : numberRead s c = (.error e, c') := by
  unfold numberRead
  rw [h]

theorem objLoop_val_err (f : Nat) (s : List Char) (c : Nat) (eN : Bool)
    (acc : List (List Char × JsonValue)) (ch : Char) (tl : List Char)
    (h : s.drop c = ch :: tl) (hne : ch ≠ '\x7d')
    (key : List Char) (c1 : Nat) (hps : parseString s c = (.ok key, c1))
    (c2 : Nat) (hcc : consumeCheck s (chop s c1) ':' = (.ok (), c2))
    (e : JErr) (c3 : Nat) (hpn : parseNext f s (chop s c2) = some (.error e, c3)) :
    objLoop (f + 1) s c eN acc = some (.error e, c3) := by
  simp only [objLoop]
  rw [if_pos (drop_lt _ _ _ _ h), read_at s c ch tl h]
  simp [hne, hps, hcc, hpn]

theorem objLoop_consume_err (f : Nat) (s : List Char) (c : Nat) (eN : Bool)
    (acc : List (List Char × JsonValue)) (ch : Char) (tl : List Char)
    (h : s.drop c = ch :: tl) (hne : ch ≠ '\x7d')
    (key : List Char) (c1 : Nat) (hps : parseString s c = (.ok key, c1))
    (c2 : Nat) (hcc : consumeCheck s (chop s c1) ':' = (.ok (), c2))
    (v : JsonValue) (c3 : Nat) (hpn : parseNext f s (chop s c2) = some (.ok v, c3))
    (e : JErr) (c5 : Nat) (hcons : consume s (chop s c3) = (.error e, c5)) :
    objLoop (f + 1) s c eN acc = some (.error e, c5) := by
  simp only [objLoop]
  rw [if_pos (drop_lt _ _ _ _ h), read_at s c ch tl h]
  simp [hne, hps, hcc, hpn, hcons]

theorem arrLoop_consume_err (f : Nat) (s : List Char) (c : Nat) (eN : Bool)
    (acc : List JsonValue) (ch : Char) (tl : List Char)
    (h : s.drop c = ch :: tl) (hne : ch ≠ ']')
    (v : JsonValue) (c1 : Nat) (hpn : parseNext f s c = some (.ok v, c1))
    (e : JErr) (c3 : Nat) (hcons : consume s (chop s c1) = (.error e, c3)) :
    arrLoop (f + 1) s c eN acc = some (.error e, c3) := by
  simp only [arrLoop]
  rw [if_pos (drop_lt _ _ _ _ h), read_at s c ch tl h]
  simp [hne, hpn, hcons]


/-! Concrete documents appearing in the claims, and the evaluation of the
parser on them, derived through the step lemmas above. -/

def docTruncObj : List Char := ['\x7b', '"', 'a', '"', ':', '1']

def docBareStr : List Char := ['"', 'a', 'b', 'c']

def docBareArr2 : List Char := ['[', '1', ',', '2']

def docUntermStr : List Char := ['\x7b', '"', 'a', '"', ':', '"', 'b', 'c']

def docObjTrailing : List Char := ['\x7b', '"', 'a', '"', ':', '1', ',', '\x7d']

def docArrTrailing : List Char := ['[', '1', ',', ']']

def docBareArr3 : List Char := ['[', '1', ',', '2', ',', '3', ']']

theorem parse_docTruncObj : parse docTruncObj = some (.error .Eof) := by
  rw [parse_eq]
  rw [show chop docTruncObj 0 = 0 from chop_stop _ 0 '\x7b' rfl (by decide)]
  rw [show parseFuel docTruncObj = 20 + 1 from rfl]
  rw [parseObject_step 20 docTruncObj 0 ['"', 'a', '"', ':', '1'] rfl]
  rw [show chop docTruncObj (0 + 1) = 1 from chop_stop _ 1 '"' rfl (by decide)]
  have hps : parseString docTruncObj 1 = (.ok ['a'], 4) := by
    have := parseString_run docTruncObj ['a'] [':', '1'] (by decide) 1 rfl
    simpa using this
  have hcc : consumeCheck docTruncObj (chop docTruncObj 4) ':' = (.ok (), 5) := by
    rw [show chop docTruncObj 4 = 4 from chop_stop _ 4 ':' rfl (by decide)]
    have := consumeCheck_at docTruncObj 4 ':' ['1'] rfl
    simpa using this
  have hloop : numLoop docTruncObj 5 false [] = (.ok ['1'], 6) := by
    rw [numLoop_digits docTruncObj ['1'] (by decide) 5 false [] [] rfl]
    rw [numLoop_stop docTruncObj (5 + ['1'].length) false ([] ++ ['1']) [] rfl trivial]
    rfl
  have hnum : numberRead docTruncObj 5 = (.ok (.number 1), 6) :=
    numberRead_eq docTruncObj 5 ['1'] 6 1 hloop (by decide)
  have hpn : parseNext 19 docTruncObj (chop docTruncObj 5) = some (.ok (.number 1), 6) := by
    rw [show chop docTruncObj 5 = 5 from chop_stop _ 5 '1' rfl (by decide)]
    have h := parseNext_num 18 docTruncObj 5 '1' []
      (by rw [show chop docTruncObj 5 = 5 from chop_stop _ 5 '1' rfl (by decide)]; rfl)
      (by decide) (by decide) (by decide) (by decide)
    rw [show chop docTruncObj 5 = 5 from chop_stop _ 5 '1' rfl (by decide), hnum] at h
    exact h
  have hcons : consume docTruncObj (chop docTruncObj 6) = (.error .Eof, 6) := by
    rw [show chop docTruncObj 6 = 6 from chop_past_end _ 6 (by decide)]
    exact consume_none _ 6 (by decide)
  rw [show (20 : Nat) = 19 + 1 from rfl]
  rw [objLoop_consume_err 19 docTruncObj 1 false [] '"' ['a', '"', ':', '1'] rfl (by decide)
    ['a'] 4 hps 5 hcc (.number 1) 6 hpn .Eof 6 hcons]
  rfl

theorem parse_docBareStr : parse docBareStr = some (.error (.InvalidChar '\x7b' '"')) := by
  rw [parse_eq]
  rw [show chop docBareStr 0 = 0 from chop_stop _ 0 '"' rfl (by decide)]
  rw [show parseFuel docBareStr = 14 + 1 from rfl]
  rw [parseObject_errStep 14 docBareStr 0 (.InvalidChar '\x7b' '"') 1
    (consumeCheck_ne docBareStr 0 '"' '\x7b' ['a', 'b', 'c'] rfl (by decide))]
  rfl

theorem parse_docBareArr2 : parse docBareArr2 = some (.error (.InvalidChar '\x7b' '[')) := by
  rw [parse_eq]
  rw [show chop docBareArr2 0 = 0 from chop_stop _ 0 '[' rfl (by decide)]
  rw [show parseFuel docBareArr2 = 14 + 1 from rfl]
  rw [parseObject_errStep 14 docBareArr2 0 (.InvalidChar '\x7b' '[') 1
    (consumeCheck_ne docBareArr2 0 '[' '\x7b' ['1', ',', '2'] rfl (by decide))]
  rfl

theorem parse_docArrTrailing : parse docArrTrailing = some (.error (.InvalidChar '\x7b' '[')) := by
  rw [parse_eq]
  rw [show chop docArrTrailing 0 = 0 from chop_stop _ 0 '[' rfl (by decide)]
  rw [show parseFuel docArrTrailing = 14 + 1 from rfl]
  rw [parseObject_errStep 14 docArrTrailing 0 (.InvalidChar '\x7b' '[') 1
    (consumeCheck_ne docArrTrailing 0 '[' '\x7b' ['1', ',', ']'] rfl (by decide))]
  rfl

theorem parse_docUntermStr : parse docUntermStr = some (.error .NoEnd) := by
  rw [parse_eq]
  rw [show chop docUntermStr 0 = 0 from chop_stop _ 0 '\x7b' rfl (by decide)]
  rw [show parseFuel docUntermStr = 26 + 1 from rfl]
  rw [parseObject_step 26 docUntermStr 0 ['"', 'a', '"', ':', '"', 'b', 'c'] rfl]
  rw [show chop docUntermStr (0 + 1) = 1 from chop_stop _ 1 '"' rfl (by decide)]
  have hps : parseString docUntermStr 1 = (.ok ['a'], 4) := by
    have := parseString_run docUntermStr ['a'] [':', '"', 'b', 'c'] (by decide) 1 rfl
    simpa using this
  have hcc : consumeCheck docUntermStr (chop docUntermStr 4) ':' = (.ok (), 5) := by
    rw [show chop docUntermStr 4 = 4 from chop_stop _ 4 ':' rfl (by decide)]
    have := consumeCheck_at docUntermStr 4 ':' ['"', 'b', 'c'] rfl
    simpa using this
  have hps5 : parseString docUntermStr 5 = (.error .NoEnd, 8) := by
    unfold parseString
    rw [consumeCheck_at docUntermStr 5 '"' ['b', 'c'] rfl]
    show stringLoop docUntermStr (5 + 1) [] = _
    have := stringLoop_noend docUntermStr ['b', 'c'] (by decide) 6 [] rfl
    simpa using this
  have hpn : parseNext 25 docUntermStr (chop docUntermStr 5) = some (.error .NoEnd, 8) := by
    rw [show chop docUntermStr 5 = 5 from chop_stop _ 5 '"' rfl (by decide)]
    have h := parseNext_strErr 24 docUntermStr 5 .NoEnd 8 ['b', 'c']
      (by rw [show chop docUntermStr 5 = 5 from chop_stop _ 5 '"' rfl (by decide)]; rfl)
      (by rw [show chop docUntermStr 5 = 5 from chop_stop _ 5 '"' rfl (by decide)]; exact hps5)
    exact h
  rw [show (26 : Nat) = 25 + 1 from rfl]
  rw [objLoop_val_err 25 docUntermStr 1 false [] '"' ['a', '"', ':', '"', 'b', 'c'] rfl
    (by decide) ['a'] 4 hps 5 hcc .NoEnd 8 hpn]
  rfl

theorem parse_docObjTrailing : parse docObjTrailing = some (.error .Unknown) := by
  rw [parse_eq]
  rw [show chop docObjTrailing 0 = 0 from chop_stop _ 0 '\x7b' rfl (by decide)]
  rw [show parseFuel docObjTrailing = 26 + 1 from rfl]
  rw [parseObject_step 26 docObjTrailing 0 ['"', 'a', '"', ':', '1', ',', '\x7d'] rfl]
  rw [show chop docObjTrailing (0 + 1) = 1 from chop_stop _ 1 '"' rfl (by decide)]
  have hps : parseString docObjTrailing 1 = (.ok ['a'], 4) := by
    have := parseString_run docObjTrailing ['a'] [':', '1', ',', '\x7d'] (by decide) 1 rfl
    simpa using this
  have hcc : consumeCheck docObjTrailing (chop docObjTrailing 4) ':' = (.ok (), 5) := by
    rw [show chop docObjTrailing 4 = 4 from chop_stop _ 4 ':' rfl (by decide)]
    have := consumeCheck_at docObjTrailing 4 ':' ['1', ',', '\x7d'] rfl
    simpa using this
  have hloop : numLoop docObjTrailing 5 false [] = (.ok ['1'], 6) := by
    rw [numLoop_digits docObjTrailing ['1'] (by decide) 5 false [] [',', '\x7d'] rfl]
    rw [numLoop_stop docObjTrailing (5 + ['1'].length) false ([] ++ ['1']) [',', '\x7d'] rfl
      ⟨by decide, by decide⟩]
    rfl
  have hnum : numberRead docObjTrailing 5 = (.ok (.number 1), 6) :=
    numberRead_eq docObjTrailing 5 ['1'] 6 1 hloop (by decide)
  have hpn : parseNext 25 docObjTrailing (chop docObjTrailing 5) =
      some (.ok (.number 1), 6) := by
    rw [show chop docObjTrailing 5 = 5 from chop_stop _ 5 '1' rfl (by decide)]
    have h := parseNext_num 24 docObjTrailing 5 '1' [',', '\x7d']
      (by rw [show chop docObjTrailing 5 = 5 from chop_stop _ 5 '1' rfl (by decide)]; rfl)
      (by decide) (by decide) (by decide) (by decide)
    rw [show chop docObjTrailing 5 = 5 from chop_stop _ 5 '1' rfl (by decide), hnum] at h
    exact h
  have hcons : consume docObjTrailing (chop docObjTrailing 6) = (.ok ',', 7) := by
    rw [show chop docObjTrailing 6 = 6 from chop_stop _ 6 ',' rfl (by decide)]
    exact consume_at docObjTrailing 6 ',' ['\x7d'] rfl
  rw [show (26 : Nat) = 25 + 1 from rfl]
  rw [objLoop_step 25 docObjTrailing 1 false [] '"' ['a', '"', ':', '1', ',', '\x7d'] rfl
    (by decide) ['a'] 4 hps 5 hcc (.number 1) 6 hpn ',' 7 hcons]
  rw [if_pos rfl]
  rw [show chop docObjTrailing 7 = 7 from chop_stop _ 7 '\x7d' rfl (by decide)]
  rw [show (25 : Nat) = 24 + 1 from rfl]
  rw [objLoop_trailing 24 docObjTrailing 7 (insertKV [] ['a'] (.number 1)) [] rfl]
  rfl

theorem parseArray_docArrTrailing :
    parseArray 15 docArrTrailing 0 = some (.error .Unknown, 3) := by
  rw [show (15 : Nat) = 14 + 1 from rfl]
  rw [parseArray_step 14 docArrTrailing 0 ['1', ',', ']'] rfl]
  rw [show chop docArrTrailing (0 + 1) = 1 from chop_stop _ 1 '1' rfl (by decide)]
  have hloop : numLoop docArrTrailing 1 false [] = (.ok ['1'], 2) := by
    rw [numLoop_digits docArrTrailing ['1'] (by decide) 1 false [] [',', ']'] rfl]
    rw [numLoop_stop docArrTrailing (1 + ['1'].length) false ([] ++ ['1']) [',', ']'] rfl
      ⟨by decide, by decide⟩]
    rfl
  have hnum : numberRead docArrTrailing 1 = (.ok (.number 1), 2) :=
    numberRead_eq docArrTrailing 1 ['1'] 2 1 hloop (by decide)
  have hpn : parseNext 13 docArrTrailing 1 = some (.ok (.number 1), 2) := by
    have h := parseNext_num 12 docArrTrailing 1 '1' [',', ']']
      (by rw [show chop docArrTrailing 1 = 1 from chop_stop _ 1 '1' rfl (by decide)]; rfl)
      (by decide) (by decide) (by decide) (by decide)
    rw [show chop docArrTrailing 1 = 1 from chop_stop _ 1 '1' rfl (by decide), hnum] at h
    exact h
  have hcons : consume docArrTrailing (chop docArrTrailing 2) = (.ok ',', 3) := by
    rw [show chop docArrTrailing 2 = 2 from chop_stop _ 2 ',' rfl (by decide)]
    exact consume_at docArrTrailing 2 ',' [']'] rfl
  rw [show (14 : Nat) = 13 + 1 from rfl]
  rw [arrLoop_step 13 docArrTrailing 1 false [] '1' [',', ']'] rfl (by decide)
    (.number 1) 2 hpn ',' 3 hcons]
  rw [if_pos rfl]
  rw [show chop docArrTrailing 3 = 3 from chop_stop _ 3 ']' rfl (by decide)]
  rw [show (13 : Nat) = 12 + 1 from rfl]
  exact arrLoop_trailing 12 docArrTrailing 3 ([] ++ [JsonValue.number 1]) [] rfl


theorem getElem_drop_cons (s : List Char) (c : Nat) (ch : Char) (h : s[c]? = some ch) :
    s.drop c = ch :: s.drop (c + 1) := by
  have hlt : c < s.length := by
    by_contra hc
    rw [List.getElem?_eq_none (by omega)] at h
    cases h
  have hch : s[c] = ch := by
    rw [List.getElem?_eq_getElem hlt] at h
    exact Option.some.inj h
  rw [List.drop_eq_getElem_cons hlt, hch]

/-- The number reader on a buffer with a second dot: the error carries the
text accumulated so far, with the offending dot appended, and the cursor
stays on the second dot. -/
theorem parseNext_doubleDot (f : Nat) (s : List Char) (c : Nat) (d1 d2 rest : List Char)
    (h1ne : d1 ≠ []) (h1 : ∀ x ∈ d1, x.isDigit = true) (h2 : ∀ x ∈ d2, x.isDigit = true)
    (hdrop : s.drop c = d1 ++ ('.' :: (d2 ++ '.' :: rest))) :
    parseNext (f + 1) s c =
      some (.error (.InvalidNumber (d1 ++ '.' :: (d2 ++ ['.']))),
        c + d1.length + 1 + d2.length) := by
  obtain ⟨d, d1', rfl⟩ : ∃ d d1', d1 = d :: d1' := by
    cases d1 with
    | nil => exact absurd rfl h1ne
    | cons d d1' => exact ⟨d, d1', rfl⟩
  have hd0 : d.isDigit = true := h1 d (by simp)
  have hd' : s.drop c = d :: (d1' ++ ('.' :: (d2 ++ '.' :: rest))) := by simpa using hdrop
  have hch : chop s c = c := chop_stop s c d (drop_head _ _ _ _ hd') (digit_not_ws d hd0)
  have hdot1 : s.drop (c + (d :: d1').length) = '.' :: (d2 ++ '.' :: rest) :=
    drop_append s c (d :: d1') _ hdrop
  have hd2 : s.drop (c + (d :: d1').length + 1) = d2 ++ ('.' :: rest) :=
    drop_tail _ _ _ _ hdot1
  have hdot2 : s.drop (c + (d :: d1').length + 1 + d2.length) = '.' :: rest :=
    drop_append s (c + (d :: d1').length + 1) d2 _ hd2
  have hloop : numLoop s c false [] =
      (.error (.InvalidNumber ((d :: d1') ++ '.' :: (d2 ++ ['.']))),
        c + (d :: d1').length + 1 + d2.length) := by
    rw [numLoop_digits s (d :: d1') h1 c false [] _ hdrop]
    rw [numLoop_first_dot s (c + (d :: d1').length) ([] ++ (d :: d1')) _ hdot1]
    rw [numLoop_digits s d2 h2 (c + (d :: d1').length + 1) true
      (([] ++ (d :: d1')) ++ ['.']) ('.' :: rest) hd2]
    rw [numLoop_second_dot s (c + (d :: d1').length + 1 + d2.length)
      ((([] ++ (d :: d1')) ++ ['.']) ++ d2) rest hdot2]
    simp
  have hnum := numberRead_errOf s c _ _ hloop
  rw [parseNext_num f s c d (d1' ++ ('.' :: (d2 ++ '.' :: rest))) (by rw [hch]; exact hd')
    (digit_ne d hd0 _ (by decide)) (digit_ne d hd0 _ (by decide))
    (digit_ne d hd0 _ (by decide)) hd0, hch, hnum]

/-- The number reader on a well-formed number token followed by a
non-numeric character: the token's value, cursor at the first non-numeric
character. -/
theorem parseNext_number (f : Nat) (s : List Char) (c : Nat) (ip : List Char)
    (fr : Option (List Char)) (rest : List Char) (hne : ip ≠ [])
    (hip : ∀ x ∈ ip, x.isDigit = true)
    (hfr : ∀ f', fr = some f' → ∀ x ∈ f', x.isDigit = true)
    (hrest : headNotNum rest) (hdrop : s.drop c = (ip ++ renderFr fr) ++ rest) :
    parseNext (f + 1) s c =
      some (.ok (.number (numValue ip fr)), c + (ip ++ renderFr fr).length) := by
  obtain ⟨d, ip', rfl⟩ : ∃ d ip', ip = d :: ip' := by
    cases ip with
    | nil => exact absurd rfl hne
    | cons d ip' => exact ⟨d, ip', rfl⟩
  have hd0 : d.isDigit = true := hip d (by simp)
  have hd' : s.drop c = d :: ((ip' ++ renderFr fr) ++ rest) := by simpa using hdrop
  have hch : chop s c = c := chop_stop s c d (drop_head _ _ _ _ hd') (digit_not_ws d hd0)
  have hnr := numberRead_run s c (d :: ip') fr rest hne hip hfr hrest hdrop
  rw [parseNext_num f s c d ((ip' ++ renderFr fr) ++ rest) (by rw [hch]; exact hd')
    (digit_ne d hd0 _ (by decide)) (digit_ne d hd0 _ (by decide))
    (digit_ne d hd0 _ (by decide)) hd0, hch, hnr]


/-! Concrete well-formed documents used by the claims. -/

/-- The round-trip document, whitespace-free. -/
def w1 : WDoc :=
  ⟨[], [],
    .more ['a'] [] [] (.wnum ['1'] none)
      (.comma [] [] ['b'] [] []
        (.warr [] (.more .wtrue (.comma [] [] .wfalse (.comma [] [] .wnull (.last [])))))
        (.comma [] [] ['c'] [] []
          (.wobj [] (.more ['d'] [] [] (.wnum ['2'] (some ['5'])) (.last [])))
          (.last [])))⟩

theorem w1_render : renderDoc w1 =
    ['\x7b', '"', 'a', '"', ':', '1', ',', '"', 'b', '"', ':', '[', 't', 'r', 'u', 'e',
     ',', 'f', 'a', 'l', 's', 'e', ',', 'n', 'u', 'l', 'l', ']', ',', '"', 'c', '"',
     ':', '\x7b', '"', 'd', '"', ':', '2', '.', '5', '\x7d', '\x7d'] := by
  simp [w1, renderDoc, renderMems, renderMem, renderMTail, renderVal, renderItems,
    renderTail, renderFr]

theorem w1_wf : wfDoc w1 := by
  simp [w1, wfDoc, wfMems, wfMTail, wfVal, wfItems, wfTail, wsChars] <;> decide

theorem w1_denote : denoteDoc w1 =
    .obj [(['a'], .number 1), (['b'], .arr [.bool true, .bool false, .null]),
          (['c'], .obj [(['d'], .number 2.5)])] := by
  have e1 : numValue ['1'] none = (1 : Rat) := by decide
  have e2 : numValue ['2'] (some ['5']) = (2.5 : Rat) := by
    simp [numValue, digitsVal]
    norm_num
  simp [w1, denoteDoc, foldMems, foldMTail, denoteVal, denoteItems, collectTail,
    insertKV, e1, e2]

/-- The duplicate-key document. -/
def w6 : WDoc :=
  ⟨[], [], .more ['a'] [] [] (.wnum ['1'] none)
    (.comma [] [] ['a'] [] [] (.wnum ['2'] none) (.last []))⟩

theorem w6_render : renderDoc w6 =
    ['\x7b', '"', 'a', '"', ':', '1', ',', '"', 'a', '"', ':', '2', '\x7d'] := by
  simp [w6, renderDoc, renderMems, renderMem, renderMTail, renderVal, renderFr]

theorem w6_wf : wfDoc w6 := by
  simp [w6, wfDoc, wfMems, wfMTail, wfVal, wsChars] <;> decide

theorem w6_denote : denoteDoc w6 = .obj [(['a'], .number 2)] := by
  have e1 : numValue ['1'] none = (1 : Rat) := by decide
  have e2 : numValue ['2'] none = (2 : Rat) := by decide
  simp [w6, denoteDoc, foldMems, foldMTail, denoteVal, insertKV, e1, e2]

/-- A one-member document without whitespace. -/
def w8a : WDoc := ⟨[], [], .more ['a'] [] [] (.wnum ['1'] none) (.last [])⟩

/-- The same document with whitespace runs at every permitted gap. -/
def w8b : WDoc :=
  ⟨[' '], ['\t'], .more ['a'] [' ', ' '] ['\n'] (.wnum ['1'] none) (.last ['\r', ' '])⟩

theorem w8a_wf : wfDoc w8a := by
  simp [w8a, wfDoc, wfMems, wfMTail, wfVal, wsChars] <;> decide

theorem w8b_wf : wfDoc w8b := by
  simp [w8b, wfDoc, wfMems, wfMTail, wfVal, wsChars] <;> decide

theorem w8_strip : stripDoc w8a = stripDoc w8b := by
  simp [w8a, w8b, stripDoc, stripMems, stripMTail, stripVal]


/-! The claims. -/

/-- C1: parsing the document with keys a, b, c succeeds and returns the
object mapping a to Number 1, b to the array of true, false, null, and c
to the object mapping d to Number 2.5. -/
theorem C1_roundtrip :
    parse ['\x7b', '"', 'a', '"', ':', '1', ',', '"', 'b', '"', ':', '[', 't', 'r', 'u',
      'e', ',', 'f', 'a', 'l', 's', 'e', ',', 'n', 'u', 'l', 'l', ']', ',', '"', 'c',
      '"', ':', '\x7b', '"', 'd', '"', ':', '2', '.', '5', '\x7d', '\x7d'] =
    some (.ok (.obj [(['a'], .number 1),
      (['b'], .arr [.bool true, .bool false, .null]),
      (['c'], .obj [(['d'], .number 2.5)])])) := by
  have h := parseRender w1 w1_wf []
  rw [List.append_nil, w1_render, w1_denote] at h
  exact h

/-- C2 (amended): the truncated inputs all fail, but the object truncated
before its closing brace fails with Eof (end of file), not NoEnd; and the
bare truncated string and bare truncated array fail at the root check with
InvalidChar, before any unterminated-construct error can arise.  Only a
string truncated inside an object produces NoEnd. -/
theorem C2_truncation_amended :
    parse docTruncObj = some (.error .Eof) ∧
    parse docBareStr = some (.error (.InvalidChar '\x7b' '"')) ∧
    parse docBareArr2 = some (.error (.InvalidChar '\x7b' '[')) ∧
    parse docUntermStr = some (.error .NoEnd) :=
  ⟨parse_docTruncObj, parse_docBareStr, parse_docBareArr2, parse_docUntermStr⟩

/-- C2 (counterexample): the object document truncated before its closing
brace does not fail with the unterminated-construct error NoEnd; it fails
with Eof, raised by the member loop's separator consume at end of input. -/
theorem C2_truncation_counterexample :
    parse docTruncObj ≠ some (.error .NoEnd) ∧ parse docTruncObj = some (.error .Eof) :=
  ⟨by rw [parse_docTruncObj]; simp, parse_docTruncObj⟩

/-- C3 (amended): a trailing comma is never silently accepted.  Whenever
the array or object loop sees the closing delimiter right after a comma,
it fails with Unknown; so the object document with a trailing comma fails
with Unknown, and an array with a trailing comma fails with Unknown when
read as a value.  But the bare array document with a trailing comma fails
earlier, at the root check, with InvalidChar: the Unknown error is never
reached for it. -/
theorem C3_trailing_comma_amended :
    parse docObjTrailing = some (.error .Unknown) ∧
    parseArray 15 docArrTrailing 0 = some (.error .Unknown, 3) ∧
    parse docArrTrailing = some (.error (.InvalidChar '\x7b' '[')) ∧
    (∀ f s c acc tl, s.drop c = ']' :: tl →
      arrLoop (f + 1) s c true acc = some (.error .Unknown, c)) ∧
    (∀ f s c acc tl, s.drop c = '\x7d' :: tl →
      objLoop (f + 1) s c true acc = some (.error .Unknown, c)) :=
  ⟨parse_docObjTrailing, parseArray_docArrTrailing, parse_docArrTrailing,
    arrLoop_trailing, objLoop_trailing⟩

theorem C3_trailing_comma_witness :
    (['x', ']'] : List Char).drop 1 = ']' :: [] ∧
    arrLoop (0 + 1) ['x', ']'] 1 true [] = some (.error .Unknown, 1) :=
  ⟨rfl, C3_trailing_comma_amended.2.2.2.1 0 ['x', ']'] 1 [] [] rfl⟩

/-- C3 (counterexample): the bare array document with a trailing comma
does not fail with the trailing-comma error Unknown as a document: the
root check rejects it first with InvalidChar, expected brace, got
bracket. -/
theorem C3_trailing_comma_counterexample :
    parse docArrTrailing ≠ some (.error .Unknown) ∧
    parse docArrTrailing = some (.error (.InvalidChar '\x7b' '[')) :=
  ⟨by rw [parse_docArrTrailing]; simp, parse_docArrTrailing⟩

/-- C4: when the first non-whitespace character of the input is not an
opening brace, parse fails with InvalidChar carrying the expected brace
and the character actually found. -/
theorem C4_non_object_root (s : List Char) (ch : Char)
    (hget : s[chop s 0]? = some ch) (hne : ch ≠ '\x7b') :
    parse s = some (.error (.InvalidChar '\x7b' ch)) := by
  rw [parse_eq]
  rw [show parseFuel s = (3 * s.length + 2) + 1 from rfl]
  rw [parseObject_errStep (3 * s.length + 2) s (chop s 0) (.InvalidChar '\x7b' ch)
    (chop s 0 + 1) (consumeCheck_ne s (chop s 0) ch '\x7b' (s.drop (chop s 0 + 1))
      (getElem_drop_cons s (chop s 0) ch hget) hne)]
  rfl

theorem C4_non_object_root_witness :
    docBareArr3[chop docBareArr3 0]? = some '[' ∧
    parse docBareArr3 = some (.error (.InvalidChar '\x7b' '[')) := by
  have hch : chop docBareArr3 0 = 0 := chop_stop _ 0 '[' rfl (by decide)
  exact ⟨by rw [hch]; rfl,
    C4_non_object_root docBareArr3 '[' (by rw [hch]; rfl) (by decide)⟩

/-- C5: the number reader accumulates digits and at most one dot; a second
dot fails with InvalidNumber carrying the accumulated text with the
offending dot appended, cursor on the second dot; a well-formed digit run
with at most one dot parses to its numeric value with the cursor on the
first non-numeric character.  Concretely 1.2.3 fails with InvalidNumber,
100 parses to Number 100, and 2.5 parses to Number 2.5. -/
theorem C5_number_reader :
    (∀ f s c d1 d2 rest, d1 ≠ [] → (∀ x ∈ d1, x.isDigit = true) →
      (∀ x ∈ d2, x.isDigit = true) → s.drop c = d1 ++ ('.' :: (d2 ++ '.' :: rest)) →
      parseNext (f + 1) s c = some (.error (.InvalidNumber (d1 ++ '.' :: (d2 ++ ['.']))),
        c + d1.length + 1 + d2.length)) ∧
    (∀ f s c ip fr rest, ip ≠ [] → (∀ x ∈ ip, x.isDigit = true) →
      (∀ f2, fr = some f2 → ∀ x ∈ f2, x.isDigit = true) → headNotNum rest →
      s.drop c = (ip ++ renderFr fr) ++ rest →
      parseNext (f + 1) s c = some (.ok (.number (numValue ip fr)),
        c + (ip ++ renderFr fr).length)) ∧
    parseNext 1 ['1', '.', '2', '.', '3'] 0 =
      some (.error (.InvalidNumber ['1', '.', '2', '.']), 3) ∧
    parseNext 1 ['1', '0', '0'] 0 = some (.ok (.number 100), 3) ∧
    parseNext 1 ['2', '.', '5'] 0 = some (.ok (.number 2.5), 3) := by
  refine ⟨parseNext_doubleDot, parseNext_number, ?_, ?_, ?_⟩
  · exact parseNext_doubleDot 0 ['1', '.', '2', '.', '3'] 0 ['1'] ['2'] ['3']
      (by decide) (by decide) (by decide) rfl
  · have h := parseNext_number 0 ['1', '0', '0'] 0 ['1', '0', '0'] none []
      (by decide) (by decide) (fun f2 hf2 => by cases hf2) trivial rfl
    rw [show numValue ['1', '0', '0'] none = (100 : Rat) from by decide] at h
    exact h
  · have h := parseNext_number 0 ['2', '.', '5'] 0 ['2'] (some ['5']) []
      (by decide) (by decide) (fun f2 hf2 => by cases hf2; decide) trivial rfl
    rw [show numValue ['2'] (some ['5']) = (2.5 : Rat) from by
      simp [numValue, digitsVal]; norm_num] at h
    exact h

theorem C5_number_reader_witness :
    (['4'] : List Char) ≠ [] ∧
    parseNext (0 + 1) ['4', '.', '2', '.'] 0 =
      some (.error (.InvalidNumber ['4', '.', '2', '.']), 3) :=
  ⟨by decide, C5_number_reader.1 0 ['4', '.', '2', '.'] 0 ['4'] ['2'] []
    (by decide) (by decide) (by decide) rfl⟩

/-- C6: a repeated object key overwrites the earlier entry in place, last
write wins, with no error: the two-member document with key a twice parses
to the object mapping a to Number 2. -/
theorem C6_duplicate_key :
    parse ['\x7b', '"', 'a', '"', ':', '1', ',', '"', 'a', '"', ':', '2', '\x7d'] =
      some (.ok (.obj [(['a'], .number 2)])) := by
  have h := parseRender w6 w6_wf []
  rw [List.append_nil, w6_render, w6_denote] at h
  exact h

/-- C7: the string reader at a quote returns exactly the characters
between the opening quote and the first subsequent quote, with no escape
processing (a backslash is an ordinary data character, an embedded quote
always terminates), cursor just past the closing quote. -/
theorem C7_string_reader (s : List Char) (c : Nat) (body rest : List Char)
    (hq : '"' ∉ body) (h : s.drop c = '"' :: (body ++ '"' :: rest)) :
    parseString s c = (.ok body, c + body.length + 2) :=
  parseString_run s body rest hq c h

theorem C7_string_reader_witness :
    ('"' ∉ (['a', '\\', 'b'] : List Char)) ∧
    parseString ['"', 'a', '\\', 'b', '"', 'x'] 0 = (.ok ['a', '\\', 'b'], 5) :=
  ⟨by decide,
    C7_string_reader ['"', 'a', '\\', 'b', '"', 'x'] 0 ['a', '\\', 'b'] ['x']
      (by decide) rfl⟩

/-- C8: two well-formed documents that differ only in the whitespace runs
at the parser-tolerated gaps parse to the same result. -/
theorem C8_whitespace_insensitive (d1 d2 : WDoc) (h1 : wfDoc d1) (h2 : wfDoc d2)
    (hstrip : stripDoc d1 = stripDoc d2) :
    parse (renderDoc d1) = parse (renderDoc d2) := by
  have ha := parseRender d1 h1 []
  have hb := parseRender d2 h2 []
  rw [List.append_nil] at ha hb
  rw [ha, hb, ← denoteDoc_strip d1, ← denoteDoc_strip d2, hstrip]

theorem C8_whitespace_insensitive_witness :
    wfDoc w8a ∧ wfDoc w8b ∧ stripDoc w8a = stripDoc w8b ∧
    parse (renderDoc w8a) = parse (renderDoc w8b) :=
  ⟨w8a_wf, w8b_wf, w8_strip,
    C8_whitespace_insensitive w8a w8b w8a_wf w8b_wf w8_strip⟩

/-- C9: every operation of the scanner keeps the cursor within the bounds
of the input and never decreases it, whether it succeeds or fails; the
whole-document run ends with the cursor within bounds. -/
theorem C9_cursor_invariant :
    (∀ s c, cursorOK s c (chop s c)) ∧
    (∀ s c res c', consume s c = (res, c') → cursorOK s c c') ∧
    (∀ s c e res c', consumeCheck s c e = (res, c') → cursorOK s c c') ∧
    (∀ s c text res c', stringLoop s c text = (res, c') → cursorOK s c c') ∧
    (∀ s c res c', parseString s c = (res, c') → cursorOK s c c') ∧
    (∀ s c fp text res c', numLoop s c fp text = (res, c') → cursorOK s c c') ∧
    (∀ s c res c', numberRead s c = (res, c') → cursorOK s c c') ∧
    (∀ s c text, cursorOK s c (wordLoop s c text).2) ∧
    (∀ s c res c', wordRead s c = (res, c') → cursorOK s c c') ∧
    (∀ fuel s c r c', parseNext fuel s c = some (r, c') → cursorOK s c c') ∧
    (∀ fuel s c r c', parseArray fuel s c = some (r, c') → cursorOK s c c') ∧
    (∀ fuel s c eN acc r c', arrLoop fuel s c eN acc = some (r, c') → cursorOK s c c') ∧
    (∀ fuel s c r c', parseObject fuel s c = some (r, c') → cursorOK s c c') ∧
    (∀ fuel s c eN acc r c', objLoop fuel s c eN acc = some (r, c') → cursorOK s c c') ∧
    (∀ s r c', parseFull s = some (r, c') → c' ≤ s.length) := by
  refine ⟨fun s c => cursorOK_chop s c, consume_cursorOK, consumeCheck_cursorOK,
    fun s c text res c' h => stringLoop_cursorOK s c text res c' h,
    parseString_cursorOK,
    fun s c fp text res c' h => numLoop_cursorOK s c fp text res c' h,
    numberRead_cursorOK,
    fun s c text => wordLoop_cursorOK s c text,
    wordRead_cursorOK,
    fun fuel => (parsersCursorOK fuel).1,
    fun fuel => (parsersCursorOK fuel).2.1,
    fun fuel => (parsersCursorOK fuel).2.2.1,
    fun fuel => (parsersCursorOK fuel).2.2.2.1,
    fun fuel => (parsersCursorOK fuel).2.2.2.2,
    ?_⟩
  intro s r c' h
  unfold parseFull at h
  have hok := (parsersCursorOK (parseFuel s)).2.2.2.1 s (chop s 0) r c' h
  exact hok.2 (chop_le s 0 (Nat.zero_le _))

theorem C9_cursor_invariant_witness :
    consume ['a'] 0 = (.ok 'a', 1) ∧ cursorOK ['a'] 0 1 :=
  ⟨rfl, C9_cursor_invariant.2.1 ['a'] 0 (.ok 'a') 1 rfl⟩

/-- C10: parse never checks that the input is exhausted: any well-formed
document followed by arbitrary extra characters parses to the same value
as the document alone, the extra characters being ignored. -/
theorem C10_trailing_garbage (d : WDoc) (rest : List Char) (hd : wfDoc d) :
    parse (renderDoc d ++ rest) = some (.ok (denoteDoc d)) ∧
    parse (renderDoc d ++ rest) = parse (renderDoc d) := by
  have h1 := parseRender d hd rest
  have h2 := parseRender d hd []
  rw [List.append_nil] at h2
  exact ⟨h1, by rw [h1, h2]⟩

theorem C10_trailing_garbage_witness :
    wfDoc w8a ∧
    parse (renderDoc w8a ++ ['g', 'a', 'r', 'b', 'a', 'g', 'e']) =
      some (.ok (denoteDoc w8a)) :=
  ⟨w8a_wf, (C10_trailing_garbage w8a ['g', 'a', 'r', 'b', 'a', 'g', 'e'] w8a_wf).1⟩

end SJP
